import Mathlib

/-!
Verification development for the netSALT quantum-graph laser code.

The numerical core of the repository is shallowly embedded here:

* `find_threshold_lasing_modes` (src/netsalt/modes.py, lines 672-735) becomes the
  state machine `tlStep` / `tlRun` over an arbitrary linear ordered field; the
  parts of one round that call numerical black boxes that are not part of the
  repository sources (the eigenvalue solver inside `refine_mode_brownian_ratchet`
  from the missing module netsalt.algorithm, and the physics helpers `q_value`
  and `gamma` from the missing module netsalt.physics) enter as oracle functions
  collected in `TLOracles`, while all of the control flow, the acceptance and
  drop tests, the write-once bookkeeping and the step capping are embedded
  literally from the source.
* `compute_modal_intensities` together with `_find_next_lasing_mode`
  (src/netsalt/modes.py, lines 496-614) becomes `miStep` / `miRun`; the call to
  `np.linalg.pinv` is an oracle field of `MIData` and everything else is
  embedded from the source.
* `lasing_threshold_linear`, `compute_overlapping_factor`, `_graph_norm` and the
  mask construction (src/netsalt/modes.py, lines 143-168, 222-240, 738-745)
  are embedded over ℂ in `graphNorm`, `overlappingFactor`, `ltlDenomVal`.
* `construct_incidence_matrix` and `construct_weight_matrix`
  (src/naq_graphs/main.py) are embedded in `Bentry`, `BoutEntry`, `wEntry`,
  `weightEntry`.
* `_compute_mode_competition_element` and `compute_mode_competition_matrix`
  (src/netsalt/modes.py, lines 333-493) are embedded in `competitionElement`
  and `competitionMatrixFull`.
* `mode_on_nodes`, `flux_on_edges`, `mean_mode_on_edges`,
  `compute_overlapping_factor` and `_precomputations_mode_competition`
  (src/netsalt/modes.py, lines 254-330) become `Except`-valued functions whose
  only failure point is the quality test of `mode_on_nodes`.

Machine floats are modelled as exact elements of a linear ordered field (ℚ for
executable counterexamples, ℝ/ℂ where the code manipulates complex quantities);
the float literals 1e-6 and 1e-10 of the source become the exact constants
`tol6` and `eps10`.
-/

namespace NetSalt

section Helpers

variable {α : Type*} [LinearOrderedField α]

/-- First index attaining the minimum of `g` on `0, ..., n-1`
(`np.argmin` keeps the first minimiser; for `n = 0` numpy raises, here the
fold returns `0`). -/
def npArgmin (g : ℕ → WithTop α) (n : ℕ) : ℕ :=
  (List.range n).foldl (fun best j => if g j < g best then j else best) 0

/-- Minimum of `g` on `0, ..., n-1`, with `⊤` for `n = 0` (`np.min` over an
array that may hold `np.inf` entries). -/
def npMin (g : ℕ → WithTop α) (n : ℕ) : WithTop α :=
  ((List.range n).map g).foldr min ⊤

/-- The float literal `1e-6` of the source, taken exactly. -/
def tol6 : α := 1 / 1000000

/-- The float literal `1e-10` of the source, taken exactly. -/
def eps10 : α := 1 / 10000000000

end Helpers

/-! ### Threshold continuation: `find_threshold_lasing_modes`

State of the while loop of `find_threshold_lasing_modes`.  Arrays indexed by
mode id become functions from ℕ; `np.inf` entries of `lasing_thresholds`
become `⊤ : WithTop α`.  The list `current` is the `current_modes` array. -/

structure TLState (α : Type*) where
  newModes : ℕ → α × α
  D0s : ℕ → α
  thModes : ℕ → α × α
  thresholds : ℕ → WithTop α
  current : List ℕ

/-- Parameters read from `graph.graph["params"]` by `find_threshold_lasing_modes`:
the number of rows of `modes_df`, `D0_max`, the local variable
`D0_steps = D0_max / params["D0_steps"]`, and the entry value of
`search_stepsize` (captured once into the local `stepsize`). -/
structure TLParams (α : Type*) where
  nModes : ℕ
  D0Max : α
  D0Step : α
  stepsize0 : α

/-- Oracles for the numerical black boxes used by one round:
`ltlDenom mode D0` is the denominator
`q_value(mode) * -np.imag(gamma(...)) * np.real(compute_overlapping_factor(...))`
of `lasing_threshold_linear` (its factors live in the missing module
netsalt.physics and behind a sparse eigenvalue solve);
`pumpLinear mode D0_0 D0_1` is `pump_linear`; `refine i approx D0 stepsize`
is `refine_mode_brownian_ratchet` as invoked through `WorkerModes` (the worker
sets `params["D0"]` and reads the current `search_stepsize`). -/
structure TLOracles (α : Type*) where
  ltlDenom : α × α → α → α
  pumpLinear : α × α → α → α → α × α
  refine : ℕ → α × α → α → α → α × α

variable {α : Type*} [LinearOrderedField α]

/-- `new_D0s[i] = abs(D0s[i] + lasing_threshold_linear(...)); new_D0s[i] =
min(new_D0s[i], D0_steps + D0s[i])`.  `lasing_threshold_linear` returns the
IEEE reciprocal of its denominator, so a zero denominator yields `±inf`,
`abs` maps it to `+inf` and the `min` takes the cap; entries outside
`current_modes` stay at the `np.zeros` initialisation. -/
def tlNewD0 (R : TLOracles α) (P : TLParams α) (s : TLState α) (i : ℕ) : α :=
  if i ∈ s.current then
    if R.ltlDenom (s.newModes i) (s.D0s i) = 0 then P.D0Step + s.D0s i
    else min |s.D0s i + (R.ltlDenom (s.newModes i) (s.D0s i))⁻¹| (P.D0Step + s.D0s i)
  else 0

/-- `search_stepsize = stepsize * np.mean(abs(new_D0s[new_D0s > 0] -
D0s[new_D0s > 0])) / D0_steps`, with `stepsize` the entry value.  When the
selection is empty numpy produces NaN; the value is only ever passed to the
refinement oracle, and the empty case is modelled by 0. -/
def tlStepsize (R : TLOracles α) (P : TLParams α) (s : TLState α) : α :=
  let sel := (List.range P.nModes).filter (fun i => 0 < tlNewD0 R P s i)
  if sel = [] then 0
  else P.stepsize0 * ((sel.map (fun i => |tlNewD0 R P s i - s.D0s i|)).sum /
    (sel.length : α)) / P.D0Step

/-- The refined position of mode `i` in the current round:
`refine_mode_brownian_ratchet` applied to
`pump_linear(new_modes[i], graph, D0s[i], new_D0s[i])` at pump `new_D0s[i]`
with the updated `search_stepsize`. -/
def tlRefined (R : TLOracles α) (P : TLParams α) (s : TLState α) (i : ℕ) : α × α :=
  R.refine i (R.pumpLinear (s.newModes i) (s.D0s i) (tlNewD0 R P s i))
    (tlNewD0 R P s i) (tlStepsize R P s)

/-- One round of the while loop of `find_threshold_lasing_modes`.
A current mode whose refined loss satisfies `abs(new_modes_tmp[i][1]) < 1e-6`
is accepted: its `threshold_lasing_modes` row and `lasing_thresholds` entry are
written and it leaves `current_modes`; otherwise, if `new_D0s[i] > D0_max`, it
is dropped without any write.  (The `is None` test of the source can never fire:
`new_modes_tmp` is a float array, so its rows are never `None`.)  At the end of
the round `D0s = new_D0s.copy()` and `new_modes = new_modes_tmp.copy()`, which
resets the entries of modes no longer current to the `np.zeros` fill. -/
def tlStep (R : TLOracles α) (P : TLParams α) (s : TLState α) : TLState α :=
  { newModes := fun i => if i ∈ s.current then tlRefined R P s i else (0, 0)
    D0s := fun i => tlNewD0 R P s i
    thModes := fun i =>
      if i ∈ s.current ∧ |(tlRefined R P s i).2| < tol6 then tlRefined R P s i
      else s.thModes i
    thresholds := fun i =>
      if i ∈ s.current ∧ |(tlRefined R P s i).2| < tol6 then
        ((tlNewD0 R P s i : α) : WithTop α)
      else s.thresholds i
    current := s.current.filter
      (fun i => ¬ |(tlRefined R P s i).2| < tol6 ∧ ¬ P.D0Max < tlNewD0 R P s i) }

/-- Entry state: `new_modes` holds the passive positions, `D0s = 0`,
`threshold_lasing_modes = np.zeros([n, 2])`, `lasing_thresholds = inf`,
`current_modes = np.arange(n)`. -/
def tlInit (P : TLParams α) (passive : ℕ → α × α) : TLState α :=
  { newModes := passive
    D0s := fun _ => 0
    thModes := fun _ => (0, 0)
    thresholds := fun _ => ⊤
    current := List.range P.nModes }

/-- The while loop `while len(current_modes) > 0`, fuelled: one application of
`tlStep` per round while `current` is nonempty. -/
def tlRun (R : TLOracles α) (P : TLParams α) (passive : ℕ → α × α) : ℕ → TLState α
  | 0 => tlInit P passive
  | f + 1 =>
    let s := tlRun R P passive f
    if s.current = [] then s else tlStep R P s

/-- Mode `i` is accepted in round `r`: it is still current and its refined loss
magnitude falls below the `1e-6` tolerance. -/
def tlAcceptedAt (R : TLOracles α) (P : TLParams α) (passive : ℕ → α × α)
    (r i : ℕ) : Prop :=
  i ∈ (tlRun R P passive r).current ∧
    |(tlRefined R P (tlRun R P passive r) i).2| < tol6

instance (R : TLOracles α) (P : TLParams α) (passive : ℕ → α × α) (r i : ℕ) :
    Decidable (tlAcceptedAt R P passive r i) := by
  unfold tlAcceptedAt; infer_instance

/-! ### Modal intensity continuation: `compute_modal_intensities` -/

/-- Inputs of `compute_modal_intensities` and `_find_next_lasing_mode`:
`n` rows, the mode competition matrix `T`, the lasing thresholds `t`
(the claims are settled on inputs whose thresholds are finite numbers),
the oracle `pinv` standing for `np.linalg.pinv` of the submatrix
`T[ids, ids]` (indexed by positions in `ids`), and
`dEnd = pump_intensities[-1]`. -/
structure MIData (α : Type*) where
  n : ℕ
  T : ℕ → ℕ → α
  t : ℕ → α
  pinv : List ℕ → ℕ → ℕ → α
  dEnd : α

/-- `slopes = mode_competition_matrix_inv.dot(1.0 / lasing_thresholds[ids])`,
entry at position `j` of `ids`. -/
def miSlope (d : MIData α) (ids : List ℕ) (j : ℕ) : α :=
  ∑ k in Finset.range ids.length, d.pinv ids j k * (d.t (ids.getD k 0))⁻¹

/-- `shifts = mode_competition_matrix_inv.sum(1)`, entry at position `j`. -/
def miShift (d : MIData α) (ids : List ℕ) (j : ℕ) : α :=
  ∑ k in Finset.range ids.length, d.pinv ids j k

/-- `sub_mode_comp_matrix_mu[-1, :].dot(sub_mode_comp_matrix_inv)`:
the row `T[mu, ids]` times the pseudo-inverse of `T[ids, ids]`,
entry at position `j`. -/
def miAvec (d : MIData α) (ids : List ℕ) (mu j : ℕ) : α :=
  ∑ k in Finset.range ids.length, d.T mu (ids.getD k 0) * d.pinv ids k j

/-- `sub_mode_comp_matrix_mu_inv.sum()`. -/
def miAsum (d : MIData α) (ids : List ℕ) (mu : ℕ) : α :=
  ∑ j in Finset.range ids.length, miAvec d ids mu j

/-- `sub_mode_comp_matrix_mu_inv.dot(1.0 / lasing_thresholds[ids])`. -/
def miAdot (d : MIData α) (ids : List ℕ) (mu : ℕ) : α :=
  ∑ j in Finset.range ids.length, miAvec d ids mu j * (d.t (ids.getD j 0))⁻¹

/-- The effective (competition-adjusted) threshold
`lasing_thresholds[mu] * factor` of `_find_next_lasing_mode`. -/
def miEffTh (d : MIData α) (ids : List ℕ) (mu : ℕ) : α :=
  d.t mu * ((1 - miAsum d ids mu) / (1 - d.t mu * miAdot d ids mu))

/-- The `interacting_lasing_thresholds` array built by
`_find_next_lasing_mode`: `inf` for lasing modes, and the effective threshold
for a non-lasing mode when it exceeds the current pump intensity. -/
def miInteracting (d : MIData α) (pump : α) (ids : List ℕ) (mu : ℕ) : WithTop α :=
  if mu ∈ ids then ⊤
  else if pump < miEffTh d ids mu then ((miEffTh d ids mu : α) : WithTop α) else ⊤

/-- `next_lasing_mode_id = np.argmin(interacting_lasing_thresholds)`. -/
def miNextId (d : MIData α) (pump : α) (ids : List ℕ) : ℕ :=
  npArgmin (miInteracting d pump ids) d.n

/-- `next_lasing_threshold = interacting_lasing_thresholds[next_lasing_mode_id]`. -/
def miNextTh (d : MIData α) (pump : α) (ids : List ℕ) : WithTop α :=
  miInteracting d pump ids (miNextId d pump ids)

/-- `vanishing_intensities = shifts / slopes`, with the entries whose slope
satisfies `slopes > -1e-10` set to `np.inf`; indexed by position in `ids`. -/
def miVi (d : MIData α) (ids : List ℕ) (j : ℕ) : WithTop α :=
  if -eps10 < miSlope d ids j then ⊤
  else ((miShift d ids j / miSlope d ids j : α) : WithTop α)

/-- The test `any(slopes < -1e-10)` guarding the vanishing branch. -/
def miHasVan (d : MIData α) (ids : List ℕ) : Prop :=
  ∃ j ∈ Finset.range ids.length, miSlope d ids j < -eps10

instance (d : MIData α) (ids : List ℕ) : Decidable (miHasVan d ids) := by
  unfold miHasVan; infer_instance

/-- State of the event loop of `compute_modal_intensities`: the
`lasing_mode_ids` list, the current `pump_intensity`, the cells written into
the `modal_intensities` frame (mode id, pump column, value, in write order)
and the `interacting_lasing_thresholds` array. -/
structure MIState (α : Type*) where
  lasing : List ℕ
  pump : α
  records : List (ℕ × α × α)
  interacting : ℕ → WithTop α

/-- One iteration of the while loop of `compute_modal_intensities`:
record `slopes * pump_intensity - shifts` for the lasing modes, search the
next lasing mode, and apply the vanishing event when
`any(slopes < -1e-10)` and `np.min(vanishing_intensities) <
next_lasing_threshold`, else the onset event (which appends
`next_lasing_mode_id` unconditionally, and either advances the pump to the
finite next threshold or jumps to `pump_intensities[-1] * 1.1`). -/
def miStep (d : MIData α) (s : MIState α) : MIState α :=
  let ids := s.lasing
  let L := ids.length
  let recs := s.records ++ (List.range L).map
    (fun j => (ids.getD j 0, s.pump, miSlope d ids j * s.pump - miShift d ids j))
  let nid := miNextId d s.pump ids
  let nth := miNextTh d s.pump ids
  if miHasVan d ids ∧ npMin (miVi d ids) L < nth then
    let pv := (npMin (miVi d ids) L).untop' 0 + eps10
    let vid := ids.getD (npArgmin (miVi d ids) L) 0
    { lasing := ids.erase vid
      pump := pv
      records := recs ++ [(vid, pv, 0)]
      interacting := s.interacting }
  else if nth < ⊤ then
    { lasing := ids ++ [nid]
      pump := nth.untop' 0
      records := recs
      interacting := Function.update s.interacting nid nth }
  else
    { lasing := ids ++ [nid]
      pump := d.dEnd * (11 / 10)
      records := recs
      interacting := s.interacting }

/-- Entry state of `compute_modal_intensities`:
`next_lasing_mode_id = np.argmin(lasing_thresholds)` is the single lasing
mode, its intensity cell at its own threshold is written as 0, the
`interacting_lasing_thresholds` array holds `inf` except at that mode, and
`pump_intensity` starts at that threshold. -/
def miInit (d : MIData α) : MIState α :=
  let i0 := npArgmin (fun i => ((d.t i : α) : WithTop α)) d.n
  { lasing := [i0]
    pump := d.t i0
    records := [(i0, d.t i0, 0)]
    interacting := Function.update (fun _ => (⊤ : WithTop α)) i0 ((d.t i0 : α) : WithTop α) }

/-- The fuelled while loop `while pump_intensity < pump_intensities[-1]`. -/
def miRun (d : MIData α) : ℕ → MIState α
  | 0 => miInit d
  | f + 1 =>
    let s := miRun d f
    if s.pump < d.dEnd then miStep d s else s

/-! ### Pump overlap: `_graph_norm`, masks, `compute_overlapping_factor`,
`lasing_threshold_linear`

The incidence, weight and Z matrices consumed here are built by the module
netsalt.quantum_graph, which is not among the repository sources; they enter
as plain matrix arguments.  The mask construction and the norm arithmetic are
embedded from src/netsalt/modes.py. -/

/-- The per-edge data of `graph.graph["params"]` consumed by the overlap
computation, together with the operator matrices for the current mode. -/
structure PumpGraphData (nn m : ℕ) where
  BT : Matrix (Fin nn) (Fin (2 * m)) ℂ
  Bout : Matrix (Fin (2 * m)) (Fin nn) ℂ
  Winv : Matrix (Fin (2 * m)) (Fin (2 * m)) ℂ
  Zmat : Matrix (Fin (2 * m)) (Fin (2 * m)) ℂ
  dielectric : Fin m → ℂ
  pump : Fin m → ℝ
  inner : Fin m → Bool

/-- `_convert_edges`: duplicate a per-edge vector onto both directed
traversals (`edge_vector[::2] = edge_vector[1::2] = vector`). -/
def convertEdges {m : ℕ} (v : Fin m → ℂ) : Fin (2 * m) → ℂ :=
  fun j => v ⟨j.val / 2, by have := j.2; omega⟩

/-- `in_mask = sc.sparse.diags(_convert_edges(np.array(params["inner"])))`. -/
noncomputable def inMask {nn m : ℕ} (g : PumpGraphData nn m) : Matrix (Fin (2 * m)) (Fin (2 * m)) ℂ :=
  Matrix.diagonal (convertEdges (fun e => if g.inner e then 1 else 0))

/-- `pump_mask = sc.sparse.diags(_convert_edges(params["pump"])).dot(in_mask)`. -/
noncomputable def pumpMask {nn m : ℕ} (g : PumpGraphData nn m) : Matrix (Fin (2 * m)) (Fin (2 * m)) ℂ :=
  Matrix.diagonal (convertEdges (fun e => ((g.pump e : ℝ) : ℂ))) * inMask g

/-- `dielectric_constant.dot(in_mask)` of `compute_overlapping_factor`. -/
noncomputable def dielInner {nn m : ℕ} (g : PumpGraphData nn m) : Matrix (Fin (2 * m)) (Fin (2 * m)) ℂ :=
  Matrix.diagonal (convertEdges g.dielectric) * inMask g

/-- `_graph_norm`: `weight_matrix = Winv.dot(z_matrix).dot(Winv);
inner_matrix = BT.dot(weight_matrix).dot(mask).dot(Bout);
norm = node_solution.T.dot(inner_matrix.dot(node_solution))`. -/
noncomputable def graphNorm {nn m : ℕ} (g : PumpGraphData nn m)
    (mask : Matrix (Fin (2 * m)) (Fin (2 * m)) ℂ) (sol : Fin nn → ℂ) : ℂ :=
  Matrix.dotProduct sol ((g.BT * (g.Winv * g.Zmat * g.Winv) * mask * g.Bout).mulVec sol)

/-- `compute_overlapping_factor` for a node solution `sol` of the mode:
`pump_norm / inner_norm`. -/
noncomputable def overlappingFactor {nn m : ℕ} (g : PumpGraphData nn m) (sol : Fin nn → ℂ) : ℂ :=
  graphNorm g (pumpMask g) sol / graphNorm g (dielInner g) sol

/-- The denominator of `lasing_threshold_linear`:
`q_value(mode) * -np.imag(gamma(to_complex(mode), params)) *
np.real(compute_overlapping_factor(mode, graph))`; `q_value` and `gamma`
live in the missing module netsalt.physics and enter as the values
`qv` and `gam`. -/
noncomputable def ltlDenomVal {nn m : ℕ} (g : PumpGraphData nn m) (sol : Fin nn → ℂ)
    (qv : ℝ) (gam : ℂ) : ℝ :=
  qv * -gam.im * (overlappingFactor g sol).re

/-! ### Incidence matrices: `construct_incidence_matrix` (src/naq_graphs/main.py) -/

/-- A graph as consumed by src/naq_graphs/main.py: the edge list in
enumeration order with per-edge length and complex wavenumber. -/
structure NAQGraph where
  nNodes : ℕ
  edges : List (ℕ × ℕ)
  length : ℕ → ℝ
  k : ℕ → ℂ

/-- Distinct neighbours of node `u` (networkx adjacency:
`len(graph[u])` counts neighbours, merging parallel edges). -/
def nbrs (g : NAQGraph) (u : ℕ) : List ℕ :=
  (g.edges.filterMap (fun e =>
    if e.1 = u then some e.2 else if e.2 = u then some e.1 else none)).dedup

/-- `len(graph[u])`: the degree used by the dangling-node test. -/
def degAdj (g : NAQGraph) (u : ℕ) : ℕ := (nbrs g u).length

/-- Edge `ei` touches a degree-1 node:
`len(graph[u]) == 1 or len(graph[v]) == 1`. -/
def dangling (g : NAQGraph) (ei : ℕ) : Prop :=
  degAdj g (g.edges.getD ei (0, 0)).1 = 1 ∨ degAdj g (g.edges.getD ei (0, 0)).2 = 1

instance (g : NAQGraph) (ei : ℕ) : Decidable (dangling g ei) := by
  unfold dangling; infer_instance

/-- `expl = np.exp(1.j * graph[u][v]["length"] * graph[u][v]["k"])`. -/
noncomputable def expl (g : NAQGraph) (ei : ℕ) : ℂ :=
  Complex.exp (Complex.I * (g.length ei : ℂ) * g.k ei)

/-- The four COO triplets contributed by edge `ei` to `B`, evaluated at entry
`(r, c)` (scipy sums duplicate triplets when converting to csc). -/
noncomputable def Bcontrib (g : NAQGraph) (ei r c : ℕ) : ℂ :=
  let e := g.edges.getD ei (0, 0)
  (if r = 2 * ei ∧ c = e.1 then -1 else 0) +
    (if r = 2 * ei ∧ c = e.2 then expl g ei else 0) +
    (if r = 2 * ei + 1 ∧ c = e.1 then expl g ei else 0) +
    (if r = 2 * ei + 1 ∧ c = e.2 then -1 else 0)

/-- The four COO triplets contributed by edge `ei` to `Bout`: the two
`expl` entries are written as 0 when the edge touches a degree-1 node, the
two `-1` entries are written unconditionally. -/
noncomputable def BoutContrib (g : NAQGraph) (ei r c : ℕ) : ℂ :=
  let e := g.edges.getD ei (0, 0)
  (if r = 2 * ei ∧ c = e.1 then -1 else 0) +
    (if r = 2 * ei ∧ c = e.2 then (if dangling g ei then 0 else expl g ei) else 0) +
    (if r = 2 * ei + 1 ∧ c = e.1 then (if dangling g ei then 0 else expl g ei) else 0) +
    (if r = 2 * ei + 1 ∧ c = e.2 then -1 else 0)

/-- Entry `(r, c)` of the incidence matrix `B`. -/
noncomputable def Bentry (g : NAQGraph) (r c : ℕ) : ℂ :=
  ∑ ei in Finset.range g.edges.length, Bcontrib g ei r c

/-- Entry `(r, c)` of the matrix `Bout`. -/
noncomputable def BoutEntry (g : NAQGraph) (r c : ℕ) : ℂ :=
  ∑ ei in Finset.range g.edges.length, BoutContrib g ei r c

/-- The `Bout` described by the claim wording: equal to `B` except that
every contribution of an edge touching a degree-1 node is zeroed. -/
noncomputable def BoutClaimEntry (g : NAQGraph) (r c : ℕ) : ℂ :=
  ∑ ei in Finset.range g.edges.length,
    if dangling g ei then 0 else Bcontrib g ei r c

/-- The `expl` contributions of dangling edges at entry `(r, c)`: what
`Bout` actually removes from `B`. -/
noncomputable def danglingPhase (g : NAQGraph) (r c : ℕ) : ℂ :=
  ∑ ei in Finset.range g.edges.length,
    if dangling g ei then
      (if r = 2 * ei ∧ c = (g.edges.getD ei (0, 0)).2 then expl g ei else 0) +
        (if r = 2 * ei + 1 ∧ c = (g.edges.getD ei (0, 0)).1 then expl g ei else 0)
    else 0

/-! ### Weight matrix: `construct_weight_matrix` (src/naq_graphs/main.py) -/

/-- The diagonal value for one edge:
`if abs(k) > 0: w = k / (np.exp(2. * length * k) - 1.)
else: w = -0.5 * length`.  Note the test is `abs(k) > 0`, true exactly when
`k` is not the exact float zero. -/
noncomputable def wEntry (l : ℝ) (k : ℂ) : ℂ :=
  if 0 < Complex.abs k then k / (Complex.exp (2 * (l : ℂ) * k) - 1) else -0.5 * l

/-- The factor `np.exp(2. * length * k)` whose excess over 1 divides the
wavenumber in `construct_weight_matrix`. -/
noncomputable def propagationW (l : ℝ) (k : ℂ) : ℂ := Complex.exp (2 * (l : ℂ) * k)

/-- Entry `(i, j)` of `W^{-1}`: each edge writes its value `w` at the two
diagonal slots `(2 ei, 2 ei)` and `(2 ei + 1, 2 ei + 1)`. -/
noncomputable def weightEntry (g : NAQGraph) (i j : ℕ) : ℂ :=
  ∑ ei in Finset.range g.edges.length,
    ((if i = 2 * ei ∧ j = 2 * ei then wEntry (g.length ei) (g.k ei) else 0) +
      (if i = 2 * ei + 1 ∧ j = 2 * ei + 1 then wEntry (g.length ei) (g.k ei) else 0))

/-! ### Mode competition matrix: `_compute_mode_competition_element`,
`compute_mode_competition_matrix` -/

/-- Per-mode data consumed by `_compute_mode_competition_element`: the
per-edge wavenumbers `k_mus` and the directional edge flux amplitudes, as
produced by `_precomputations_mode_competition` (behind the eigenvalue
solver, hence inputs here). -/
structure MCModeData where
  ks : ℕ → ℂ
  flux : ℕ → ℂ

/-- The edge-local 4×4 kernel of `_compute_mode_competition_element`
(the A, B, C, D, E, F closed-form terms). -/
noncomputable def mcInner (kmu knu : ℂ) (length : ℝ) : Fin 4 → Fin 4 → ℂ :=
  let l : ℂ := (length : ℂ)
  let termA := (Complex.exp (Complex.I * (knu - starRingEnd ℂ knu + 2 * kmu) * l) - 1) /
    (Complex.I * (knu - starRingEnd ℂ knu + 2 * kmu))
  let termB := Complex.exp (2 * Complex.I * kmu * l) *
    (Complex.exp (Complex.I * (knu - starRingEnd ℂ knu - 2 * kmu) * l) - 1) /
    (Complex.I * (knu - starRingEnd ℂ knu - 2 * kmu))
  let termC := (Complex.exp (Complex.I * (knu + 2 * kmu) * l) -
    Complex.exp (-Complex.I * starRingEnd ℂ knu * l)) /
    (Complex.I * (knu + starRingEnd ℂ knu + 2 * kmu))
  let termD := (Complex.exp (Complex.I * knu * l) -
    Complex.exp (Complex.I * (2 * kmu - starRingEnd ℂ knu) * l)) /
    (Complex.I * (knu + starRingEnd ℂ knu - 2 * kmu))
  let termE := Complex.exp (Complex.I * kmu * l) *
    (Complex.exp (Complex.I * (knu - starRingEnd ℂ knu) * l) - 1) /
    (Complex.I * (knu - starRingEnd ℂ knu))
  let termF := Complex.exp (Complex.I * kmu * l) *
    (Complex.exp (Complex.I * knu * l) - Complex.exp (-Complex.I * starRingEnd ℂ knu * l)) /
    (Complex.I * (knu + starRingEnd ℂ knu))
  ![![termA, termE, termE, termB],
    ![termC, termF, termF, termD],
    ![termD, termF, termF, termC],
    ![termB, termE, termE, termA]]

/-- The left vector of `_compute_mode_competition_element`, from the flux of
mode ν on edge `ei`. -/
noncomputable def mcLeft (nu : MCModeData) (ei : ℕ) : Fin 4 → ℂ :=
  let p := nu.flux (2 * ei)
  let q := nu.flux (2 * ei + 1)
  ![((Complex.abs p : ℝ) : ℂ) ^ 2, p * starRingEnd ℂ q, starRingEnd ℂ p * q,
    ((Complex.abs q : ℝ) : ℂ) ^ 2]

/-- The right vector, from the flux of mode μ on edge `ei`. -/
def mcRight (mu : MCModeData) (ei : ℕ) : Fin 4 → ℂ :=
  let p := mu.flux (2 * ei)
  let q := mu.flux (2 * ei + 1)
  ![p ^ 2, p * q, p * q, q ^ 2]

/-- `_compute_mode_competition_element`: the sum over inner pumped edges of
`left_vector.dot(inner_matrix.dot(right_vector))`, returned as
`-matrix_element * np.imag(gamma_nu)`. -/
noncomputable def competitionElement (lengths : ℕ → ℝ) (pump : ℕ → ℝ)
    (inner : ℕ → Bool) (m : ℕ) (mu nu : MCModeData) (gammaNu : ℂ) : ℂ :=
  -(∑ ei in Finset.range m,
      if 0 < pump ei ∧ inner ei then
        Matrix.dotProduct (mcLeft nu ei)
          ((Matrix.of (mcInner (mu.ks ei) (nu.ks ei) (lengths ei))).mulVec (mcRight mu ei))
      else 0) * ((gammaNu.im : ℝ) : ℂ)

/-- `compute_mode_competition_matrix`: the full real matrix over all rows of
`modes_df`; the pairs of modes with finite lasing thresholds receive the real
part of the complex element, every other entry keeps the `np.zeros` fill.
`precomp μ` and `gam μ` are the per-mode data of
`_precomputations_mode_competition` for the finite-threshold modes. -/
noncomputable def competitionMatrixFull (lengths : ℕ → ℝ) (pump : ℕ → ℝ)
    (inner : ℕ → Bool) (m : ℕ) (thresholds : ℕ → WithTop ℝ)
    (precomp : ℕ → MCModeData) (gam : ℕ → ℂ) (muIdx nuIdx : ℕ) : ℝ :=
  if thresholds muIdx < ⊤ ∧ thresholds nuIdx < ⊤ then
    (competitionElement lengths pump inner m (precomp muIdx) (precomp nuIdx)
      (gam nuIdx)).re
  else 0

/-- The six resonant `ik_tmp` denominators of
`_compute_mode_competition_element`, in source order (A, B, C, D, E, F);
each divides its term with no zero guard in the source. -/
noncomputable def mcDenoms (kmu knu : ℂ) : Fin 6 → ℂ :=
  ![Complex.I * (knu - starRingEnd ℂ knu + 2 * kmu),
    Complex.I * (knu - starRingEnd ℂ knu - 2 * kmu),
    Complex.I * (knu + starRingEnd ℂ knu + 2 * kmu),
    Complex.I * (knu + starRingEnd ℂ knu - 2 * kmu),
    Complex.I * (knu - starRingEnd ℂ knu),
    Complex.I * (knu + starRingEnd ℂ knu)]

/-- Element `(μ, ν)` performs no division by an exactly-zero `ik_tmp`: every
pumped inner edge keeps all six resonant denominators nonzero. -/
def mcDefined (pump : ℕ → ℝ) (inner : ℕ → Bool) (m : ℕ)
    (mu nu : MCModeData) : Prop :=
  ∀ ei ∈ Finset.range m, (0 < pump ei ∧ inner ei) →
    ∀ t : Fin 6, mcDenoms (mu.ks ei) (nu.ks ei) t ≠ 0

open Classical in
/-- `_compute_mode_competition_element` with the IEEE error path kept: when a
pumped inner edge hits an exactly-zero `ik_tmp`, numpy evaluates `0/0 = nan`
(all six numerators also vanish there), the non-finite value propagates
through the dot products and the running sum, and the element is not a
finite number, marked `none`; otherwise the element is the exact complex
value `competitionElement`. -/
noncomputable def competitionElementE (lengths : ℕ → ℝ) (pump : ℕ → ℝ)
    (inner : ℕ → Bool) (m : ℕ) (mu nu : MCModeData) (gammaNu : ℂ) : Option ℂ :=
  if mcDefined pump inner m mu nu then
    some (competitionElement lengths pump inner m mu nu gammaNu)
  else none

/-- `compute_mode_competition_matrix` with the error path kept: a pair of
finite-threshold modes receives the real part of its element when that is
finite and the non-finite marker `none` otherwise; every other entry keeps
the `np.zeros` fill. -/
noncomputable def competitionMatrixFullE (lengths : ℕ → ℝ) (pump : ℕ → ℝ)
    (inner : ℕ → Bool) (m : ℕ) (thresholds : ℕ → WithTop ℝ)
    (precomp : ℕ → MCModeData) (gam : ℕ → ℂ) (muIdx nuIdx : ℕ) : Option ℝ :=
  if thresholds muIdx < ⊤ ∧ thresholds nuIdx < ⊤ then
    (competitionElementE lengths pump inner m (precomp muIdx) (precomp nuIdx)
      (gam nuIdx)).map Complex.re
  else some 0

/-- Per-mode data with wavenumber 2 on every edge, for the C6 witness. -/
noncomputable def mcdMu : MCModeData := ⟨fun _ => 2, fun _ => 0⟩

/-- Per-mode data with wavenumber `1 + i` on every edge: all six resonant
denominators against `mcdMu` are nonzero. -/
noncomputable def mcdNu : MCModeData := ⟨fun _ => 1 + Complex.I, fun _ => 0⟩

/-- The witness precomputation table: mode 0 is `mcdMu`, every other mode is
`mcdNu`. -/
noncomputable def mcdTable : ℕ → MCModeData := fun j => if j = 0 then mcdMu else mcdNu

/-! ### Error propagation: `mode_on_nodes` and its clients -/

/-- `mode_on_nodes`: the eigenvalue of the Laplacian closest to zero and the
matching eigenvector come from `sc.sparse.linalg.eigs` (an external solver,
inputs here); the function raises
`Exception("Not a mode, as quality is too high: ...")` exactly when
`abs(min_eigenvalue[0]) > params["quality_threshold"]`, and returns the
eigenvector column otherwise.  The raised exception is modelled as the
`Except.error` value. -/
noncomputable def modeOnNodes {V : Type*} (qualityThreshold : ℝ) (ev : ℂ) (vec : V) :
    Except Unit V :=
  if qualityThreshold < Complex.abs ev then Except.error () else Except.ok vec

/-- `flux_on_edges`: `Winv.dot(BT.T).dot(mode_on_nodes(mode, graph))`; the
matrices are built by the missing module netsalt.quantum_graph, so the total
linear map they induce enters as `flux`. -/
noncomputable def fluxOnEdges {V W : Type*} (qualityThreshold : ℝ) (ev : ℂ) (vec : V)
    (flux : V → W) : Except Unit W :=
  (modeOnNodes qualityThreshold ev vec).map flux

/-- `mean_mode_on_edges`: the per-edge quadratic form applied to
`flux_on_edges(mode, graph)`; its kernel arithmetic is total and enters as
`meanOf`. -/
noncomputable def meanModeOnEdges {V W : Type*} (qualityThreshold : ℝ) (ev : ℂ) (vec : V)
    (flux : V → W) (meanOf : W → ℕ → ℝ) : Except Unit (ℕ → ℝ) :=
  (fluxOnEdges qualityThreshold ev vec flux).map meanOf

/-- `compute_overlapping_factor` as called on an arbitrary point: the mode
solution comes from `mode_on_nodes` and the rest is the total arithmetic of
`overlappingFactor`. -/
noncomputable def overlappingFactorE {nn m : ℕ} (g : PumpGraphData nn m)
    (qualityThreshold : ℝ) (ev : ℂ) (vec : Fin nn → ℂ) : Except Unit ℂ :=
  (modeOnNodes qualityThreshold ev vec).map (fun sol => overlappingFactor g sol)

/-- `_precomputations_mode_competition`: `mode_on_nodes` first, then
`flux_on_edges` (which repeats the `mode_on_nodes` call), then total
arithmetic (norms, normalisation, `gamma`) abstracted as `post`. -/
noncomputable def precompMC {V W Out : Type*} (qualityThreshold : ℝ) (ev : ℂ) (vec : V)
    (flux : V → W) (post : V → W → Out) : Except Unit Out :=
  (modeOnNodes qualityThreshold ev vec).bind (fun sol =>
    (fluxOnEdges qualityThreshold ev vec flux).map (fun ef => post sol ef))

/-! ### `find_modes` abort behaviour -/

/-- The candidate-to-refined part of `find_modes`: the worker pool maps
`refine` over the indices of the rough candidates
(`refine_mode_brownian_ratchet` returns `None` on non-convergence, hence
`Option`); `if len(refined_modes) == 0: raise Exception("No modes found!")`
fires before the `None` entries are filtered out.  The survivors then go to
`clean_duplicate_modes` (missing module netsalt.algorithm), sorting and
truncation; this embedding returns the survivor list. -/
def findModesSurvivors {α : Type*} [Zero α] (cands : List (α × α))
    (refine : ℕ → α × α → Option (α × α)) : Except Unit (List (α × α)) :=
  let refined := (List.range cands.length).map (fun i => refine i (cands.getD i (0, 0)))
  if refined.length = 0 then Except.error ()
  else Except.ok (refined.filterMap id)

/-! ### Concrete inputs for the counterexamples and witnesses

All pseudo-inverse oracles below return the exact matrix inverse of the
submatrix `T[ids, ids]` for every `ids` list that the corresponding run ever
passes to `np.linalg.pinv` (the submatrices are invertible, and the
Moore-Penrose pseudo-inverse of an invertible matrix is its inverse); this is
checked by the `pinv*_inverse` theorems below. -/

/-- Run A: two threshold modes, thresholds 1 and `2^30`, competition matrix
`[[-2^35, -2^36], [0, 1]]`, sweep end `2^31`.  The huge negative diagonal
entry gives mode 0 the slope `-2^-35`, inside the `(-1e-10, 0)` band that the
vanishing test cannot see. -/
def TmatA : ℕ → ℕ → ℚ := fun i j =>
  if i = 0 ∧ j = 0 then -(2 ^ 35)
  else if i = 0 ∧ j = 1 then -(2 ^ 36)
  else if i = 1 ∧ j = 1 then 1 else 0

/-- Lasing thresholds of run A. -/
def tvecA : ℕ → ℚ := fun i => if i = 0 then 1 else if i = 1 then 2 ^ 30 else 0

/-- Exact inverses of the submatrices of `TmatA` met during run A. -/
def pinvA : List ℕ → ℕ → ℕ → ℚ
  | [0], 0, 0 => -(1 / 2 ^ 35)
  | [0, 1], 0, 0 => -(1 / 2 ^ 35)
  | [0, 1], 0, 1 => -2
  | [0, 1], 1, 1 => 1
  | [1], 0, 0 => 1
  | _, _, _ => 0

/-- The `MIData` of run A. -/
def dataA : MIData ℚ :=
  { n := 2, T := TmatA, t := tvecA, pinv := pinvA, dEnd := 2 ^ 31 }

/-- Run B: thresholds 1 and 2, competition matrix `[[1, 2 + 2^-34], [0, 1]]`,
sweep end `2^40`.  After mode 1 turns on at pump 2, mode 0 has intensity 1
and slope `-2^-35`: it is declining through zero inside the sweep range, but
the slope lies inside the `(-1e-10, 0)` tolerance band. -/
def TmatB : ℕ → ℕ → ℚ := fun i j =>
  if i = 0 ∧ j = 0 then 1
  else if i = 0 ∧ j = 1 then 2 + 1 / 2 ^ 34
  else if i = 1 ∧ j = 1 then 1 else 0

/-- Lasing thresholds of run B. -/
def tvecB : ℕ → ℚ := fun i => if i = 0 then 1 else if i = 1 then 2 else 0

/-- Exact inverses of the submatrices of `TmatB` met during run B. -/
def pinvB : List ℕ → ℕ → ℕ → ℚ
  | [0], 0, 0 => 1
  | [0, 1], 0, 0 => 1
  | [0, 1], 0, 1 => -(2 + 1 / 2 ^ 34)
  | [0, 1], 1, 1 => 1
  | [1], 0, 0 => 1
  | _, _, _ => 0

/-- The `MIData` of run B. -/
def dataB : MIData ℚ :=
  { n := 2, T := TmatB, t := tvecB, pinv := pinvB, dEnd := 2 ^ 40 }

/-- Run C: identity competition matrix, thresholds 1 and 5, sweep end 3.
Mode 1 turns on at pump 5, beyond the sweep end, so the loop exits without
ever recording an intensity for it. -/
def TmatC : ℕ → ℕ → ℚ := fun i j =>
  if i = 0 ∧ j = 0 then 1 else if i = 1 ∧ j = 1 then 1 else 0

/-- Lasing thresholds of run C. -/
def tvecC : ℕ → ℚ := fun i => if i = 0 then 1 else if i = 1 then 5 else 0

/-- Exact inverses of the submatrices of `TmatC` met during run C. -/
def pinvC : List ℕ → ℕ → ℕ → ℚ
  | [0], 0, 0 => 1
  | [0, 1], 0, 0 => 1
  | [0, 1], 1, 1 => 1
  | [1], 0, 0 => 1
  | _, _, _ => 0

/-- The `MIData` of run C. -/
def dataC : MIData ℚ :=
  { n := 2, T := TmatC, t := tvecC, pinv := pinvC, dEnd := 3 }

/-- A zero-pump graph operating point: one inner edge, pump weight 0,
dielectric constant 1, all-ones operator matrices (so that the inner norm is
the nonzero value 2, keeping the model inside the region where the IEEE
computation of the source produces an exact 0.0 overlap). -/
noncomputable def gC2 : PumpGraphData 1 1 :=
  { BT := Matrix.of fun _ _ => 1
    Bout := Matrix.of fun _ _ => 1
    Winv := 1
    Zmat := 1
    dielectric := fun _ => 1
    pump := fun _ => 0
    inner := fun _ => true }

/-- A node solution for the zero-pump counterexample graph. -/
def solC2 : Fin 1 → ℂ := fun _ => 1

/-- Oracles for the zero-pump counterexample: the threshold denominator is
the one actually computed on `gC2`; the refinement oracle returns a lossless
position, standing for the Brownian-ratchet refinement of a passive mode
whose loss is already exactly zero (as happens on a closed graph, where
passive modes are real). -/
noncomputable def RC2 : TLOracles ℝ :=
  { ltlDenom := fun _ _ => ltlDenomVal gC2 solC2 1 Complex.I
    pumpLinear := fun mo _ _ => mo
    refine := fun _ mo _ _ => (mo.1, 0) }

/-- Parameters for the zero-pump counterexample: `D0_max = 1`,
`D0_max / params["D0_steps"] = 1/2`. -/
noncomputable def PC2 : TLParams ℝ :=
  { nModes := 1, D0Max := 1, D0Step := 1 / 2, stepsize0 := 1 }

/-- The single passive mode of the zero-pump counterexample: lossless. -/
def pasC2 : ℕ → ℝ × ℝ := fun _ => (1, 0)

/-- Simple rational oracles exercising the threshold loop for witnesses. -/
def RC1 : TLOracles ℚ :=
  { ltlDenom := fun _ _ => 1
    pumpLinear := fun mo _ _ => mo
    refine := fun _ _ _ _ => (1, 0) }

/-- Parameters for the rational witness run of the threshold loop. -/
def PC1 : TLParams ℚ :=
  { nModes := 1, D0Max := 1, D0Step := 1, stepsize0 := 1 }

/-- Passive modes for the rational witness run. -/
def pasC1 : ℕ → ℚ × ℚ := fun _ => (1, 1)

/-- A 3-cycle graph: every node has degree 2, so no edge is dangling. -/
def gTri : NAQGraph :=
  { nNodes := 3, edges := [(0, 1), (1, 2), (0, 2)], length := fun _ => 1, k := fun _ => 0 }

/-- A single edge between two degree-1 nodes: the edge is dangling. -/
def gEdge : NAQGraph :=
  { nNodes := 2, edges := [(0, 1)], length := fun _ => 1, k := fun _ => 0 }

/-- A single edge with unit wavenumber, for the weight-matrix witness. -/
def gW4 : NAQGraph :=
  { nNodes := 2, edges := [(0, 1)], length := fun _ => 1, k := fun _ => 1 }

/-- The oracle bundle of `find_threshold_lasing_modes` whose
`lasing_threshold_linear` denominator is actually computed from the graph
operating point `g` (with the eigensolution, `q_value` and `gamma` supplied
by `solO`, `qvO`, `gamO`). -/
noncomputable def mkTLOracles {nn m : ℕ} (g : PumpGraphData nn m)
    (solO : ℝ × ℝ → ℝ → Fin nn → ℂ) (qvO : ℝ × ℝ → ℝ) (gamO : ℝ × ℝ → ℝ → ℂ)
    (pl : ℝ × ℝ → ℝ → ℝ → ℝ × ℝ) (ref : ℕ → ℝ × ℝ → ℝ → ℝ → ℝ × ℝ) :
    TLOracles ℝ :=
  ⟨fun mo D0 => ltlDenomVal g (solO mo D0) (qvO mo) (gamO mo D0), pl, ref⟩

/-! ## Theorems -/

section MinLemmas

variable {α : Type*} [LinearOrderedField α]

theorem npArgmin_succ (g : ℕ → WithTop α) (n : ℕ) :
    npArgmin g (n + 1) = if g n < g (npArgmin g n) then n else npArgmin g n := by
  unfold npArgmin
  rw [List.range_succ, List.foldl_append]
  rfl

theorem npArgmin_le (g : ℕ → WithTop α) :
    ∀ n j, j < n → g (npArgmin g n) ≤ g j := by
  intro n
  induction n with
  | zero => omega
  | succ n ih =>
    intro j hj
    rw [npArgmin_succ]
    rcases Nat.lt_succ_iff_lt_or_eq.mp hj with h | h
    · by_cases hc : g n < g (npArgmin g n)
      · rw [if_pos hc]; exact le_trans (le_of_lt hc) (ih j h)
      · rw [if_neg hc]; exact ih j h
    · subst h
      by_cases hc : g j < g (npArgmin g j)
      · rw [if_pos hc]
      · rw [if_neg hc]; exact le_of_not_lt hc

theorem foldr_min_from (l : List (WithTop α)) (a : WithTop α) :
    l.foldr min a = min (l.foldr min ⊤) a := by
  induction l with
  | nil => simp [min_eq_right (le_top : a ≤ ⊤)]
  | cons x l ih => simp [List.foldr, ih, min_assoc]

theorem npMin_succ (g : ℕ → WithTop α) (n : ℕ) :
    npMin g (n + 1) = min (npMin g n) (g n) := by
  unfold npMin
  rw [List.range_succ, List.map_append, List.foldr_append]
  have h1 : List.foldr min ⊤ (List.map g [n]) = g n := by
    simp [min_eq_right (le_top : g n ≤ ⊤)]
  rw [h1, foldr_min_from]

theorem npMin_le (g : ℕ → WithTop α) :
    ∀ n j, j < n → npMin g n ≤ g j := by
  intro n
  induction n with
  | zero => omega
  | succ n ih =>
    intro j hj
    rw [npMin_succ]
    rcases Nat.lt_succ_iff_lt_or_eq.mp hj with h | h
    · exact le_trans (min_le_left _ _) (ih j h)
    · subst h; exact min_le_right _ _

theorem npMin_eq_argmin (g : ℕ → WithTop α) :
    ∀ n, 0 < n → npMin g n = g (npArgmin g n) := by
  intro n
  induction n with
  | zero => omega
  | succ n ih =>
    intro _
    rw [npMin_succ, npArgmin_succ]
    rcases Nat.eq_zero_or_pos n with h | h
    · subst h
      simp only [npMin, npArgmin, List.range_zero, List.map_nil, List.foldr_nil,
        List.foldl_nil]
      by_cases hc : g 0 < g 0
      · exact absurd hc (lt_irrefl _)
      · rw [if_neg hc]; exact min_eq_right le_top
    · rw [ih h]
      by_cases hc : g n < g (npArgmin g n)
      · rw [if_pos hc]; exact min_eq_right (le_of_lt hc)
      · rw [if_neg hc]; exact min_eq_left (le_of_not_lt hc)

end MinLemmas

section C3Theorems

/-- Claim C3 counterexample: on a scan with zero candidates, the
candidate-to-refined stage of `find_modes` returns the raised
`Exception("No modes found!")` outcome (the error value), instead of
reporting an empty mode set as a valid terminal outcome.  The concrete input
is the empty candidate list over ℚ with a refinement that would succeed. -/
theorem find_modes_empty_scan_raises_cex :
    findModesSurvivors ([] : List (ℚ × ℚ)) (fun _ mo => some mo) =
      Except.error () := by
  rfl

/-- Claim C3, amended: `find_modes` aborts with the `"No modes found!"`
exception exactly when the scan produced zero candidates; with at least one
candidate it proceeds without that error, even when every refinement was
discarded (`None`), so found-but-all-discarded is not reported as that
error. -/
theorem find_modes_error_iff_no_candidates {α : Type*} [Zero α]
    (cands : List (α × α)) (refine : ℕ → α × α → Option (α × α)) :
    findModesSurvivors cands refine = Except.error () ↔ cands = [] := by
  unfold findModesSurvivors
  simp only [List.length_map, List.length_range]
  constructor
  · intro h
    by_cases hc : cands.length = 0
    · exact List.length_eq_zero.mp hc
    · rw [if_neg hc] at h; exact absurd h (by simp)
  · intro h
    subst h
    rfl

/-- Witness for the amended claim C3: a one-candidate scan whose single
refinement is discarded still avoids the `"No modes found!"` error. -/
theorem find_modes_error_iff_no_candidates_witness :
    findModesSurvivors [((1 : ℚ), (2 : ℚ))] (fun _ _ => none) ≠
      Except.error () := by
  intro h
  have := (find_modes_error_iff_no_candidates
    [((1 : ℚ), (2 : ℚ))] (fun _ _ => none)).mp h
  exact absurd this (by simp)

end C3Theorems

section C9Theorems

/-- Claim C9: `mode_on_nodes` raises exactly when the magnitude of the
smallest-magnitude Laplacian eigenvalue exceeds `params["quality_threshold"]`
and returns the eigenvector otherwise, and the operations built on it
(`flux_on_edges`, `mean_mode_on_edges`, `compute_overlapping_factor`,
`_precomputations_mode_competition`) all fail with that exception on a point
that is not a mode to within the quality threshold. -/
theorem mode_quality_gate_propagation {V W Out : Type*}
    (qt : ℝ) (ev : ℂ) (vec : V) (flux : V → W) (meanOf : W → ℕ → ℝ)
    {nn m : ℕ} (g : PumpGraphData nn m) (vecn : Fin nn → ℂ)
    (post : V → W → Out) :
    (modeOnNodes qt ev vec = Except.error () ↔ qt < Complex.abs ev) ∧
    (¬ qt < Complex.abs ev → modeOnNodes qt ev vec = Except.ok vec) ∧
    (qt < Complex.abs ev →
      fluxOnEdges qt ev vec flux = Except.error () ∧
      meanModeOnEdges qt ev vec flux meanOf = Except.error () ∧
      overlappingFactorE g qt ev vecn = Except.error () ∧
      precompMC qt ev vec flux post = Except.error ()) := by
  refine ⟨?_, ?_, ?_⟩
  · constructor
    · intro h
      by_contra hq
      simp only [modeOnNodes, if_neg hq] at h
      exact Except.noConfusion h
    · intro h
      simp only [modeOnNodes, if_pos h]
  · intro h
    simp only [modeOnNodes, if_neg h]
  · intro h
    refine ⟨?_, ?_, ?_, ?_⟩ <;>
      simp only [fluxOnEdges, meanModeOnEdges, overlappingFactorE, precompMC,
        modeOnNodes, if_pos h, Except.map, Except.bind]

/-- Witness for claim C9: with quality threshold 1 and eigenvalue 2, every
listed operation fails. -/
theorem mode_quality_gate_propagation_witness :
    (1 : ℝ) < Complex.abs ((2 : ℝ) : ℂ) ∧
      fluxOnEdges (1 : ℝ) (((2 : ℝ) : ℂ)) () (fun u : Unit => u) =
        Except.error () := by
  have habs : (1 : ℝ) < Complex.abs ((2 : ℝ) : ℂ) := by
    rw [Complex.abs_ofReal]
    norm_num
  refine ⟨habs, ?_⟩
  exact ((mode_quality_gate_propagation 1 (((2 : ℝ) : ℂ)) () (fun u : Unit => u)
    (fun _ _ => 0) gC2 solC2 (fun _ _ => ())).2.2 habs).1

end C9Theorems

section TLTheorems

variable {α : Type*} [LinearOrderedField α]

theorem tlRun_succ (R : TLOracles α) (P : TLParams α) (passive : ℕ → α × α) (r : ℕ) :
    tlRun R P passive (r + 1) =
      if (tlRun R P passive r).current = [] then tlRun R P passive r
      else tlStep R P (tlRun R P passive r) := rfl

theorem tlStep_mem_current (R : TLOracles α) (P : TLParams α) (s : TLState α) (i : ℕ) :
    i ∈ (tlStep R P s).current ↔
      i ∈ s.current ∧ ¬ |(tlRefined R P s i).2| < tol6 ∧
        ¬ P.D0Max < tlNewD0 R P s i := by
  simp [tlStep, List.mem_filter]

theorem tl_frozen_step (R : TLOracles α) (P : TLParams α) (s : TLState α) (i : ℕ)
    (h : i ∉ s.current) :
    i ∉ (tlStep R P s).current ∧ (tlStep R P s).thresholds i = s.thresholds i ∧
      (tlStep R P s).thModes i = s.thModes i := by
  refine ⟨?_, ?_, ?_⟩
  · intro hm; exact h ((tlStep_mem_current R P s i).mp hm).1
  · simp [tlStep, h]
  · simp [tlStep, h]

theorem tl_frozen_from (R : TLOracles α) (P : TLParams α) (passive : ℕ → α × α)
    (r i : ℕ) (h : i ∉ (tlRun R P passive r).current) :
    ∀ r2, r ≤ r2 → i ∉ (tlRun R P passive r2).current ∧
      (tlRun R P passive r2).thresholds i = (tlRun R P passive r).thresholds i ∧
      (tlRun R P passive r2).thModes i = (tlRun R P passive r).thModes i := by
  intro r2 hr
  induction r2, hr using Nat.le_induction with
  | base => exact ⟨h, rfl, rfl⟩
  | succ r2 hr ih =>
    obtain ⟨h1, h2, h3⟩ := ih
    rw [tlRun_succ]
    by_cases hnil : (tlRun R P passive r2).current = []
    · rw [if_pos hnil]; exact ⟨h1, h2, h3⟩
    · rw [if_neg hnil]
      obtain ⟨g1, g2, g3⟩ := tl_frozen_step R P (tlRun R P passive r2) i h1
      exact ⟨g1, g2.trans h2, g3.trans h3⟩

theorem tl_accept_writes (R : TLOracles α) (P : TLParams α) (passive : ℕ → α × α)
    (r i : ℕ) (hacc : tlAcceptedAt R P passive r i) :
    (tlRun R P passive (r + 1)).thresholds i =
      ((tlNewD0 R P (tlRun R P passive r) i : α) : WithTop α) ∧
    (tlRun R P passive (r + 1)).thModes i = tlRefined R P (tlRun R P passive r) i ∧
    i ∉ (tlRun R P passive (r + 1)).current := by
  obtain ⟨hm, hl⟩ := hacc
  have hnil : (tlRun R P passive r).current ≠ [] := List.ne_nil_of_mem hm
  rw [tlRun_succ, if_neg hnil]
  refine ⟨?_, ?_, ?_⟩
  · simp [tlStep, hm, hl]
  · simp [tlStep, hm, hl]
  · intro hmem
    exact ((tlStep_mem_current R P (tlRun R P passive r) i).mp hmem).2.1 hl

theorem tl_virgin (R : TLOracles α) (P : TLParams α) (passive : ℕ → α × α)
    (fuel i : ℕ) (h : ∀ r < fuel, ¬ tlAcceptedAt R P passive r i) :
    (tlRun R P passive fuel).thresholds i = ⊤ := by
  induction fuel with
  | zero => rfl
  | succ fuel ih =>
    have hth : (tlRun R P passive fuel).thresholds i = ⊤ :=
      ih (fun r hr => h r (Nat.lt_succ_of_lt hr))
    rw [tlRun_succ]
    by_cases hnil : (tlRun R P passive fuel).current = []
    · rw [if_pos hnil]; exact hth
    · rw [if_neg hnil]
      have hna : ¬ tlAcceptedAt R P passive fuel i := h fuel (Nat.lt_succ_self _)
      show (if _ ∧ _ then _ else _) = ⊤
      rw [if_neg (fun hc => hna ⟨hc.1, hc.2⟩)]
      exact hth

theorem tl_accept_last (R : TLOracles α) (P : TLParams α) (passive : ℕ → α × α)
    (r i : ℕ) (hacc : tlAcceptedAt R P passive r i) :
    ∀ r2, r < r2 → ¬ tlAcceptedAt R P passive r2 i := by
  intro r2 hr2 hacc2
  have hout := (tl_accept_writes R P passive r i hacc).2.2
  exact (tl_frozen_from R P passive (r + 1) i hout r2 hr2).1 hacc2.1

/-- Claim C1: in `find_threshold_lasing_modes`, a mode reaches its terminal
found state (a finite `lasing_thresholds` entry) exactly when the magnitude
of its refined loss component falls below the tolerance `1e-6` in some round;
for every accepted mode the recorded `threshold_lasing_modes` position is the
refined position of the acceptance round — so its `|loss|` is below `1e-6` —
and its `lasing_thresholds` entry is the pump value `new_D0s[i]` of that
round; acceptance happens in at most one round, and the entries of a mode are
never rewritten after it leaves the active set (write-once upon reaching the
terminal state). -/
theorem threshold_found_iff_loss_below_tol (R : TLOracles α) (P : TLParams α)
    (passive : ℕ → α × α) (fuel i : ℕ) :
    ((tlRun R P passive fuel).thresholds i ≠ ⊤ ↔
      ∃ r < fuel, tlAcceptedAt R P passive r i) ∧
    (∀ r < fuel, tlAcceptedAt R P passive r i →
      (tlRun R P passive fuel).thModes i = tlRefined R P (tlRun R P passive r) i ∧
      |((tlRun R P passive fuel).thModes i).2| < tol6 ∧
      (tlRun R P passive fuel).thresholds i =
        ((tlNewD0 R P (tlRun R P passive r) i : α) : WithTop α)) ∧
    (∀ r r2, tlAcceptedAt R P passive r i → tlAcceptedAt R P passive r2 i →
      r = r2) := by
  have huniq : ∀ r r2, tlAcceptedAt R P passive r i →
      tlAcceptedAt R P passive r2 i → r = r2 := by
    intro r r2 h1 h2
    rcases lt_trichotomy r r2 with h | h | h
    · exact absurd h2 (tl_accept_last R P passive r i h1 r2 h)
    · exact h
    · exact absurd h1 (tl_accept_last R P passive r2 i h2 r h)
  have hwrites : ∀ r < fuel, tlAcceptedAt R P passive r i →
      (tlRun R P passive fuel).thModes i = tlRefined R P (tlRun R P passive r) i ∧
      |((tlRun R P passive fuel).thModes i).2| < tol6 ∧
      (tlRun R P passive fuel).thresholds i =
        ((tlNewD0 R P (tlRun R P passive r) i : α) : WithTop α) := by
    intro r hr hacc
    obtain ⟨hth, hmo, hout⟩ := tl_accept_writes R P passive r i hacc
    obtain ⟨_, hfth, hfmo⟩ := tl_frozen_from R P passive (r + 1) i hout fuel hr
    refine ⟨hfmo.trans hmo, ?_, hfth.trans hth⟩
    rw [hfmo.trans hmo]
    exact hacc.2
  refine ⟨⟨?_, ?_⟩, hwrites, huniq⟩
  · intro hne
    by_contra hno
    push_neg at hno
    exact hne (tl_virgin R P passive fuel i hno)
  · rintro ⟨r, hr, hacc⟩
    rw [(hwrites r hr hacc).2.2]
    exact WithTop.coe_ne_top

/-- Witness for claim C1: a rational one-mode run whose first round refines to
a lossless position; the mode is accepted in round 0 and its recorded loss is
below the tolerance. -/
theorem threshold_found_iff_loss_below_tol_witness :
    (∃ r < 1, tlAcceptedAt RC1 PC1 pasC1 r 0) ∧
      (tlRun RC1 PC1 pasC1 1).thresholds 0 ≠ ⊤ ∧
      |((tlRun RC1 PC1 pasC1 1).thModes 0).2| < tol6 := by
  have h := threshold_found_iff_loss_below_tol RC1 PC1 pasC1 1 0
  have hacc : tlAcceptedAt RC1 PC1 pasC1 0 0 := by
    constructor
    · show (0 : ℕ) ∈ (tlRun RC1 PC1 pasC1 0).current
      simp [tlRun, tlInit, PC1]
    · show |(tlRefined RC1 PC1 (tlRun RC1 PC1 pasC1 0) 0).2| < tol6
      norm_num [tlRefined, RC1, tol6]
  exact ⟨⟨0, Nat.zero_lt_one, hacc⟩,
    h.1.mpr ⟨0, Nat.zero_lt_one, hacc⟩,
    (h.2.1 0 Nat.zero_lt_one hacc).2.1⟩

end TLTheorems


section ConcreteRunLemmas

theorem sum_range_two {β : Type*} [AddCommMonoid β] (f : ℕ → β) :
    ∑ k in Finset.range 2, f k = f 0 + f 1 := by
  rw [show (2:ℕ) = 1 + 1 from rfl, Finset.sum_range_succ, Finset.sum_range_succ,
    Finset.sum_range_zero, zero_add]

theorem sum_range_one {β : Type*} [AddCommMonoid β] (f : ℕ → β) :
    ∑ k in Finset.range 1, f k = f 0 := by
  rw [Finset.sum_range_succ, Finset.sum_range_zero, zero_add]

theorem rangeOne : List.range 1 = [0] := rfl

theorem rangeTwo : List.range 2 = [0, 1] := rfl

theorem runA_init : (miInit dataA).lasing = [0] ∧ (miInit dataA).pump = 1 ∧
    (miInit dataA).records = [(0, 1, 0)] := by
  have harg : npArgmin (fun i => ((dataA.t i : ℚ) : WithTop ℚ)) dataA.n = 0 := by
    norm_num [npArgmin, show dataA.n = 2 from rfl, rangeTwo,
      show dataA.t = tvecA from rfl, tvecA]
  refine ⟨?_, ?_, ?_⟩ <;> simp only [miInit, harg] <;>
    norm_num [show dataA.t = tvecA from rfl, tvecA]

theorem runA_eff1 : miEffTh dataA [0] 1 = 2 ^ 30 := by
  norm_num [miEffTh, miAsum, miAdot, miAvec, dataA, pinvA, tvecA, TmatA, sum_range_one]

theorem runA_int0 : miInteracting dataA 1 [0] 0 = ⊤ := by
  simp [miInteracting]

theorem runA_int1 : miInteracting dataA 1 [0] 1 = ((2 ^ 30 : ℚ) : WithTop ℚ) := by
  rw [miInteracting, if_neg (by norm_num), runA_eff1, if_pos (by norm_num)]

theorem runA_nextId1 : miNextId dataA 1 [0] = 1 := by
  rw [miNextId, show dataA.n = 2 from rfl, npArgmin, rangeTwo]
  simp only [List.foldl_cons, List.foldl_nil]
  rw [runA_int0, runA_int1]
  rw [if_neg (lt_irrefl _), runA_int0, if_pos (WithTop.coe_lt_top _)]

theorem runA_nextTh1 : miNextTh dataA 1 [0] = ((2 ^ 30 : ℚ) : WithTop ℚ) := by
  rw [miNextTh, runA_nextId1, runA_int1]

theorem runA_slope1 : miSlope dataA [0] 0 = -(1 / 2 ^ 35) := by
  norm_num [miSlope, dataA, pinvA, tvecA, sum_range_one]

theorem runA_noVan1 : ¬ miHasVan dataA [0] := by
  rw [miHasVan]
  simp only [List.length_singleton]
  rw [not_exists]
  intro j
  rw [not_and]
  intro hj
  have : j = 0 := by simpa using hj
  subst this
  rw [runA_slope1]
  norm_num [eps10]

theorem runA_state1 : (miRun dataA 1).lasing = [0, 1] ∧
    (miRun dataA 1).pump = 2 ^ 30 ∧
    (miRun dataA 1).records = [(0, 1, 0), (0, 1, 0)] := by
  obtain ⟨hl, hp, hr⟩ := runA_init
  have hguard : (miRun dataA 0).pump < dataA.dEnd := by
    rw [show miRun dataA 0 = miInit dataA from rfl, hp]
    norm_num [dataA]
  have hrun : miRun dataA 1 = miStep dataA (miInit dataA) := by
    rw [show miRun dataA 1 = if (miRun dataA 0).pump < dataA.dEnd
        then miStep dataA (miRun dataA 0) else miRun dataA 0 from rfl,
      if_pos hguard]
    rfl
  rw [hrun, miStep]
  simp only [hl, hp, hr]
  rw [if_neg (by intro hc; exact runA_noVan1 hc.1)]
  rw [runA_nextTh1, runA_nextId1]
  rw [if_pos (WithTop.coe_lt_top _)]
  refine ⟨rfl, by rw [WithTop.untop'_coe], ?_⟩
  simp only [List.length_singleton, rangeOne, List.map_cons, List.map_nil]
  rw [runA_slope1]
  norm_num [miShift, dataA, pinvA, sum_range_one]

theorem npArgmin_lt {α : Type*} [LinearOrderedField α] (g : ℕ → WithTop α) :
    ∀ n, 0 < n → npArgmin g n < n := by
  intro n
  induction n with
  | zero => omega
  | succ n ih =>
    intro _
    rw [npArgmin_succ]
    rcases Nat.eq_zero_or_pos n with h | h
    · subst h
      by_cases hc : g 0 < g (npArgmin g 0) <;> simp [hc, npArgmin]
    · by_cases hc : g n < g (npArgmin g n)
      · rw [if_pos hc]; omega
      · rw [if_neg hc]; exact Nat.lt_succ_of_lt (ih h)

theorem miInteracting_top_of_le {α : Type*} [LinearOrderedField α]
    (d : MIData α) (pump : α) (ids : List ℕ) (mu : ℕ)
    (h : miEffTh d ids mu ≤ pump) : miInteracting d pump ids mu = ⊤ := by
  by_cases hm : mu ∈ ids
  · rw [miInteracting, if_pos hm]
  · rw [miInteracting, if_neg hm, if_neg (not_lt.2 h)]

theorem miNextTh_top {α : Type*} [LinearOrderedField α]
    (d : MIData α) (pump : α) (ids : List ℕ) (hn : 0 < d.n)
    (h : ∀ mu < d.n, miInteracting d pump ids mu = ⊤) :
    miNextTh d pump ids = ⊤ := by
  rw [miNextTh]
  exact h _ (npArgmin_lt _ _ hn)

-- step 2 quantities of run A
theorem runA_slope2_0 : miSlope dataA [0, 1] 0 = -(1 / 2 ^ 35) - 1 / 2 ^ 29 := by
  norm_num [miSlope, dataA, pinvA, tvecA, sum_range_two]

theorem runA_slope2_1 : miSlope dataA [0, 1] 1 = 1 / 2 ^ 30 := by
  norm_num [miSlope, dataA, pinvA, tvecA, sum_range_two]

theorem runA_shift2_0 : miShift dataA [0, 1] 0 = -(1 / 2 ^ 35) - 2 := by
  norm_num [miShift, dataA, pinvA, sum_range_two]

theorem runA_shift2_1 : miShift dataA [0, 1] 1 = 1 := by
  norm_num [miShift, dataA, pinvA, sum_range_two]

theorem runA_nextTh2 : miNextTh dataA (2 ^ 30) [0, 1] = ⊤ := by
  refine miNextTh_top _ _ _ (by norm_num [dataA]) ?_
  intro mu hmu
  have hmu2 : mu = 0 ∨ mu = 1 := by
    rw [show dataA.n = 2 from rfl] at hmu; omega
  rcases hmu2 with h | h <;> subst h <;> simp [miInteracting]

theorem runA_hasVan2 : miHasVan dataA [0, 1] := by
  rw [miHasVan]
  refine ⟨0, by simp, ?_⟩
  rw [runA_slope2_0]
  norm_num [eps10]

theorem runA_vi0 : miVi dataA [0, 1] 0 = (((2 ^ 36 + 1) / 65 : ℚ) : WithTop ℚ) := by
  rw [miVi, if_neg (by rw [runA_slope2_0]; norm_num [eps10]), runA_slope2_0, runA_shift2_0]
  norm_num

theorem runA_vi1 : miVi dataA [0, 1] 1 = ⊤ := by
  rw [miVi, if_pos (by rw [runA_slope2_1]; norm_num [eps10])]

theorem runA_npMin2 : npMin (miVi dataA [0, 1]) 2 = (((2 ^ 36 + 1) / 65 : ℚ) : WithTop ℚ) := by
  rw [npMin, rangeTwo]
  simp only [List.map_cons, List.map_nil, List.foldr_cons, List.foldr_nil]
  rw [runA_vi0, runA_vi1]
  rw [min_eq_left le_top, min_eq_left le_top]

theorem runA_argminVi : npArgmin (miVi dataA [0, 1]) 2 = 0 := by
  rw [npArgmin, rangeTwo]
  simp only [List.foldl_cons, List.foldl_nil]
  rw [if_neg (lt_irrefl _), runA_vi0, runA_vi1]
  rw [if_neg (by exact not_lt.2 le_top)]

theorem runA_state2 : (miRun dataA 2).lasing = [1] ∧
    (miRun dataA 2).pump = (2 ^ 36 + 1) / 65 + eps10 ∧
    (miRun dataA 2).records =
      [(0, 1, 0), (0, 1, 0), (0, 2 ^ 30, 1 / 2 ^ 35 - 1 / 32), (1, 2 ^ 30, 0),
        (0, (2 ^ 36 + 1) / 65 + eps10, 0)] := by
  obtain ⟨hl, hp, hr⟩ := runA_state1
  have hguard : (miRun dataA 1).pump < dataA.dEnd := by
    rw [hp]; norm_num [dataA]
  have hrun : miRun dataA 2 = miStep dataA (miRun dataA 1) := by
    rw [show miRun dataA 2 = if (miRun dataA 1).pump < dataA.dEnd
        then miStep dataA (miRun dataA 1) else miRun dataA 1 from rfl,
      if_pos hguard]
  rw [hrun, miStep]
  simp only [hl, hp, hr]
  rw [if_pos ⟨runA_hasVan2, by
    rw [show List.length [0, 1] = 2 from rfl, runA_npMin2, runA_nextTh2]
    exact WithTop.coe_lt_top _⟩]
  refine ⟨?_, ?_, ?_⟩
  · rw [show List.length [0, 1] = 2 from rfl, runA_argminVi]
    rfl
  · rw [show List.length [0, 1] = 2 from rfl, runA_npMin2, WithTop.untop'_coe]
  · rw [show List.length [0, 1] = 2 from rfl, runA_npMin2, runA_argminVi]
    rw [WithTop.untop'_coe]
    simp only [rangeTwo, List.map_cons, List.map_nil, List.getD_cons_zero,
      List.getD_cons_succ]
    rw [runA_slope2_0, runA_slope2_1, runA_shift2_0, runA_shift2_1]
    norm_num

-- Run B
theorem runB_init : (miInit dataB).lasing = [0] ∧ (miInit dataB).pump = 1 ∧
    (miInit dataB).records = [(0, 1, 0)] := by
  have harg : npArgmin (fun i => ((dataB.t i : ℚ) : WithTop ℚ)) dataB.n = 0 := by
    norm_num [npArgmin, show dataB.n = 2 from rfl, rangeTwo,
      show dataB.t = tvecB from rfl, tvecB]
  refine ⟨?_, ?_, ?_⟩ <;> simp only [miInit, harg] <;>
    norm_num [show dataB.t = tvecB from rfl, tvecB]

theorem runB_eff1 : miEffTh dataB [0] 1 = 2 := by
  norm_num [miEffTh, miAsum, miAdot, miAvec, dataB, pinvB, tvecB, TmatB, sum_range_one]

theorem runB_int0 : miInteracting dataB 1 [0] 0 = ⊤ := by
  simp [miInteracting]

theorem runB_int1 : miInteracting dataB 1 [0] 1 = ((2 : ℚ) : WithTop ℚ) := by
  rw [miInteracting, if_neg (by norm_num), runB_eff1, if_pos (by norm_num)]

theorem runB_nextId1 : miNextId dataB 1 [0] = 1 := by
  rw [miNextId, show dataB.n = 2 from rfl, npArgmin, rangeTwo]
  simp only [List.foldl_cons, List.foldl_nil]
  rw [if_neg (lt_irrefl _), runB_int0, runB_int1, if_pos (WithTop.coe_lt_top _)]

theorem runB_nextTh1 : miNextTh dataB 1 [0] = ((2 : ℚ) : WithTop ℚ) := by
  rw [miNextTh, runB_nextId1, runB_int1]

theorem runB_slope1 : miSlope dataB [0] 0 = 1 := by
  norm_num [miSlope, dataB, pinvB, tvecB, sum_range_one]

theorem runB_noVan1 : ¬ miHasVan dataB [0] := by
  rw [miHasVan]
  simp only [List.length_singleton]
  rw [not_exists]
  intro j
  rw [not_and]
  intro hj
  have : j = 0 := by simpa using hj
  subst this
  rw [runB_slope1]
  norm_num [eps10]

theorem runB_state1 : (miRun dataB 1).lasing = [0, 1] ∧
    (miRun dataB 1).pump = 2 ∧
    (miRun dataB 1).records = [(0, 1, 0), (0, 1, 0)] := by
  obtain ⟨hl, hp, hr⟩ := runB_init
  have hguard : (miRun dataB 0).pump < dataB.dEnd := by
    rw [show miRun dataB 0 = miInit dataB from rfl, hp]
    norm_num [dataB]
  have hrun : miRun dataB 1 = miStep dataB (miInit dataB) := by
    rw [show miRun dataB 1 = if (miRun dataB 0).pump < dataB.dEnd
        then miStep dataB (miRun dataB 0) else miRun dataB 0 from rfl,
      if_pos hguard]
    rfl
  rw [hrun, miStep]
  simp only [hl, hp, hr]
  rw [if_neg (by intro hc; exact runB_noVan1 hc.1)]
  rw [runB_nextTh1, runB_nextId1]
  rw [if_pos (WithTop.coe_lt_top _)]
  refine ⟨rfl, by rw [WithTop.untop'_coe], ?_⟩
  simp only [List.length_singleton, rangeOne, List.map_cons, List.map_nil]
  rw [runB_slope1]
  norm_num [miShift, dataB, pinvB, sum_range_one]

theorem runB_slope2_0 : miSlope dataB [0, 1] 0 = -(1 / 2 ^ 35) := by
  norm_num [miSlope, dataB, pinvB, tvecB, sum_range_two]

theorem runB_slope2_1 : miSlope dataB [0, 1] 1 = 1 / 2 := by
  norm_num [miSlope, dataB, pinvB, tvecB, sum_range_two]

theorem runB_shift2_0 : miShift dataB [0, 1] 0 = -1 - 1 / 2 ^ 34 := by
  norm_num [miShift, dataB, pinvB, sum_range_two]

theorem runB_shift2_1 : miShift dataB [0, 1] 1 = 1 := by
  norm_num [miShift, dataB, pinvB, sum_range_two]

theorem runB_nextTh2 : miNextTh dataB 2 [0, 1] = ⊤ := by
  refine miNextTh_top _ _ _ (by norm_num [dataB]) ?_
  intro mu hmu
  have hmu2 : mu = 0 ∨ mu = 1 := by
    rw [show dataB.n = 2 from rfl] at hmu; omega
  rcases hmu2 with h | h <;> subst h <;> simp [miInteracting]

theorem runB_noVan2 : ¬ miHasVan dataB [0, 1] := by
  rw [miHasVan]
  rw [not_exists]
  intro j
  rw [not_and]
  intro hj
  have : j = 0 ∨ j = 1 := by
    simp only [List.length_cons, List.length_nil, Finset.mem_range] at hj
    omega
  rcases this with h | h <;> subst h
  · rw [runB_slope2_0]; norm_num [eps10]
  · rw [runB_slope2_1]; norm_num [eps10]

theorem runB_state2 : (miRun dataB 2).lasing = [0, 1, 0] ∧
    (miRun dataB 2).records = [(0, 1, 0), (0, 1, 0), (0, 2, 1), (1, 2, 0)] := by
  obtain ⟨hl, hp, hr⟩ := runB_state1
  have hguard : (miRun dataB 1).pump < dataB.dEnd := by
    rw [hp]; norm_num [dataB]
  have hrun : miRun dataB 2 = miStep dataB (miRun dataB 1) := by
    rw [show miRun dataB 2 = if (miRun dataB 1).pump < dataB.dEnd
        then miStep dataB (miRun dataB 1) else miRun dataB 1 from rfl,
      if_pos hguard]
  rw [hrun, miStep]
  simp only [hl, hp, hr]
  rw [if_neg (by intro hc; exact runB_noVan2 hc.1)]
  rw [runB_nextTh2]
  rw [if_neg (by exact fun h => absurd h (lt_irrefl _))]
  constructor
  · have hI0 : miInteracting dataB 2 [0, 1] 0 = ⊤ := by simp [miInteracting]
    have hI1 : miInteracting dataB 2 [0, 1] 1 = ⊤ := by simp [miInteracting]
    have hnid : miNextId dataB 2 [0, 1] = 0 := by
      rw [miNextId, show dataB.n = 2 from rfl, npArgmin, rangeTwo]
      simp only [List.foldl_cons, List.foldl_nil]
      rw [hI0, hI1, if_neg (lt_irrefl _), hI0, if_neg (lt_irrefl _)]
    rw [hnid]
    rfl
  · simp only [show List.length [0, 1] = 2 from rfl, rangeTwo, List.map_cons,
      List.map_nil, List.getD_cons_zero, List.getD_cons_succ]
    rw [runB_slope2_0, runB_slope2_1, runB_shift2_0, runB_shift2_1]
    norm_num

-- Run C
theorem runC_init : (miInit dataC).lasing = [0] ∧ (miInit dataC).pump = 1 ∧
    (miInit dataC).records = [(0, 1, 0)] := by
  have harg : npArgmin (fun i => ((dataC.t i : ℚ) : WithTop ℚ)) dataC.n = 0 := by
    norm_num [npArgmin, show dataC.n = 2 from rfl, rangeTwo,
      show dataC.t = tvecC from rfl, tvecC]
  refine ⟨?_, ?_, ?_⟩ <;> simp only [miInit, harg] <;>
    norm_num [show dataC.t = tvecC from rfl, tvecC]

theorem runC_eff1 : miEffTh dataC [0] 1 = 5 := by
  norm_num [miEffTh, miAsum, miAdot, miAvec, dataC, pinvC, tvecC, TmatC, sum_range_one]

theorem runC_int0 : miInteracting dataC 1 [0] 0 = ⊤ := by
  simp [miInteracting]

theorem runC_int1 : miInteracting dataC 1 [0] 1 = ((5 : ℚ) : WithTop ℚ) := by
  rw [miInteracting, if_neg (by norm_num), runC_eff1, if_pos (by norm_num)]

theorem runC_nextId1 : miNextId dataC 1 [0] = 1 := by
  rw [miNextId, show dataC.n = 2 from rfl, npArgmin, rangeTwo]
  simp only [List.foldl_cons, List.foldl_nil]
  rw [if_neg (lt_irrefl _), runC_int0, runC_int1, if_pos (WithTop.coe_lt_top _)]

theorem runC_nextTh1 : miNextTh dataC 1 [0] = ((5 : ℚ) : WithTop ℚ) := by
  rw [miNextTh, runC_nextId1, runC_int1]

theorem runC_slope1 : miSlope dataC [0] 0 = 1 := by
  norm_num [miSlope, dataC, pinvC, tvecC, sum_range_one]

theorem runC_noVan1 : ¬ miHasVan dataC [0] := by
  rw [miHasVan]
  simp only [List.length_singleton]
  rw [not_exists]
  intro j
  rw [not_and]
  intro hj
  have : j = 0 := by simpa using hj
  subst this
  rw [runC_slope1]
  norm_num [eps10]

theorem runC_state1 : (miRun dataC 1).lasing = [0, 1] ∧
    (miRun dataC 1).pump = 5 ∧
    (miRun dataC 1).records = [(0, 1, 0), (0, 1, 0)] ∧
    (miRun dataC 1).interacting 1 = ((5 : ℚ) : WithTop ℚ) := by
  obtain ⟨hl, hp, hr⟩ := runC_init
  have hguard : (miRun dataC 0).pump < dataC.dEnd := by
    rw [show miRun dataC 0 = miInit dataC from rfl, hp]
    norm_num [dataC]
  have hrun : miRun dataC 1 = miStep dataC (miInit dataC) := by
    rw [show miRun dataC 1 = if (miRun dataC 0).pump < dataC.dEnd
        then miStep dataC (miRun dataC 0) else miRun dataC 0 from rfl,
      if_pos hguard]
    rfl
  rw [hrun, miStep]
  simp only [hl, hp, hr]
  rw [if_neg (by intro hc; exact runC_noVan1 hc.1)]
  rw [runC_nextTh1, runC_nextId1]
  rw [if_pos (WithTop.coe_lt_top _)]
  refine ⟨rfl, by rw [WithTop.untop'_coe], ?_, ?_⟩
  · simp only [List.length_singleton, rangeOne, List.map_cons, List.map_nil]
    rw [runC_slope1]
    norm_num [miShift, dataC, pinvC, sum_range_one]
  · simp only [Function.update_same]

theorem runC_state2 : (miRun dataC 2).lasing = [0, 1] ∧
    (miRun dataC 2).records = [(0, 1, 0), (0, 1, 0)] ∧
    (miRun dataC 2).interacting 1 = ((5 : ℚ) : WithTop ℚ) := by
  obtain ⟨hl, hp, hr, hi⟩ := runC_state1
  have hguard : ¬ (miRun dataC 1).pump < dataC.dEnd := by
    rw [hp]; norm_num [dataC]
  have hrun : miRun dataC 2 = miRun dataC 1 := by
    rw [show miRun dataC 2 = if (miRun dataC 1).pump < dataC.dEnd
        then miStep dataC (miRun dataC 1) else miRun dataC 1 from rfl,
      if_neg hguard]
  rw [hrun]
  exact ⟨hl, hr, hi⟩

end ConcreteRunLemmas

section MITheorems

variable {α : Type*} [LinearOrderedField α]

theorem miInteracting_finite (d : MIData α) (pump : α) (ids : List ℕ) (mu : ℕ)
    (x : α) (h : miInteracting d pump ids mu = (x : WithTop α)) :
    mu ∉ ids ∧ x = miEffTh d ids mu ∧ pump < x := by
  by_cases hm : mu ∈ ids
  · rw [miInteracting, if_pos hm] at h
    exact absurd h.symm WithTop.coe_ne_top
  · rw [miInteracting, if_neg hm] at h
    by_cases hp : pump < miEffTh d ids mu
    · rw [if_pos hp] at h
      have hx : miEffTh d ids mu = x := WithTop.coe_inj.mp h
      exact ⟨hm, hx.symm, hx ▸ hp⟩
    · rw [if_neg hp] at h
      exact absurd h.symm WithTop.coe_ne_top

theorem onset_intensity_zero {α : Type*} [LinearOrderedField α]
    (d : MIData α) (ids : List ℕ) (mu : ℕ)
    (hTP : ∀ i < ids.length, ∀ k < ids.length,
      ∑ j in Finset.range ids.length,
        d.T (ids.getD i 0) (ids.getD j 0) * d.pinv ids j k = if i = k then 1 else 0)
    (hPT : ∀ j < ids.length + 1,
      ∑ k in Finset.range (ids.length + 1),
        d.pinv (ids ++ [mu]) ids.length k *
          d.T ((ids ++ [mu]).getD k 0) ((ids ++ [mu]).getD j 0) =
        if ids.length = j then 1 else 0)
    (ht : d.t mu ≠ 0)
    (hden : 1 - d.t mu * miAdot d ids mu ≠ 0) :
    miSlope d (ids ++ [mu]) ids.length * miEffTh d ids mu -
      miShift d (ids ++ [mu]) ids.length = 0 := by
  have hlen2 : (ids ++ [mu]).length = ids.length + 1 := by simp
  have hget1 : ∀ k, k < ids.length → (ids ++ [mu]).getD k 0 = ids.getD k 0 :=
    fun k hk => List.getD_append _ _ _ _ hk
  have hget2 : (ids ++ [mu]).getD ids.length 0 = mu := by
    rw [List.getD_append_right _ _ _ _ (le_refl _), Nat.sub_self]
    rfl
  set p : α := miEffTh d ids mu with hpdef
  set y : ℕ → α := fun j =>
    if j < ids.length then ∑ m in Finset.range ids.length,
      d.pinv ids j m * (p * (d.t (ids.getD m 0))⁻¹ - 1) else 0 with hy
  -- row identity: for every row k of the extended system, b k = (T y) k
  have hb : ∀ k, k < ids.length + 1 →
      p * (d.t ((ids ++ [mu]).getD k 0))⁻¹ - 1 =
      ∑ j in Finset.range (ids.length + 1),
        d.T ((ids ++ [mu]).getD k 0) ((ids ++ [mu]).getD j 0) * y j := by
    intro k hk
    rw [Finset.sum_range_succ]
    have hyL : y ids.length = 0 := by simp [hy]
    rw [hyL, mul_zero, add_zero]
    have hsum : ∀ j ∈ Finset.range ids.length,
        d.T ((ids ++ [mu]).getD k 0) ((ids ++ [mu]).getD j 0) * y j =
        ∑ m in Finset.range ids.length,
          d.T ((ids ++ [mu]).getD k 0) (ids.getD j 0) * d.pinv ids j m *
            (p * (d.t (ids.getD m 0))⁻¹ - 1) := by
      intro j hj
      rw [Finset.mem_range] at hj
      rw [hget1 j hj]
      simp only [hy]
      rw [if_pos hj, Finset.mul_sum]
      exact Finset.sum_congr rfl (fun m _ => by ring)
    rw [Finset.sum_congr rfl hsum, Finset.sum_comm]
    by_cases hkL : k < ids.length
    · rw [hget1 k hkL]
      have hstep : ∀ m ∈ Finset.range ids.length,
          ∑ j in Finset.range ids.length,
            d.T (ids.getD k 0) (ids.getD j 0) * d.pinv ids j m *
              (p * (d.t (ids.getD m 0))⁻¹ - 1) =
          (if k = m then 1 else 0) * (p * (d.t (ids.getD m 0))⁻¹ - 1) := by
        intro m hm
        rw [Finset.mem_range] at hm
        rw [← Finset.sum_mul, hTP k hkL m hm]
      rw [Finset.sum_congr rfl hstep]
      simp only [ite_mul, one_mul, zero_mul]
      rw [Finset.sum_ite_eq, if_pos (Finset.mem_range.mpr hkL)]
    · have hkL2 : k = ids.length := by omega
      subst hkL2
      rw [hget2]
      have hstep : ∀ m ∈ Finset.range ids.length,
          ∑ j in Finset.range ids.length,
            d.T mu (ids.getD j 0) * d.pinv ids j m *
              (p * (d.t (ids.getD m 0))⁻¹ - 1) =
          miAvec d ids mu m * (p * (d.t (ids.getD m 0))⁻¹ - 1) := by
        intro m _
        rw [← Finset.sum_mul, miAvec]
      rw [Finset.sum_congr rfl hstep]
      have hexp : ∑ m in Finset.range ids.length,
          miAvec d ids mu m * (p * (d.t (ids.getD m 0))⁻¹ - 1) =
          p * miAdot d ids mu - miAsum d ids mu := by
        rw [miAdot, miAsum, Finset.mul_sum, ← Finset.sum_sub_distrib]
        exact Finset.sum_congr rfl (fun m _ => by ring)
      rw [hexp]
      -- the onset equation satisfied by the effective threshold
      rw [hpdef, miEffTh]
      field_simp
      ring
  -- final collapse using the left inverse on the extended system
  rw [miSlope, miShift, hlen2]
  have hgoal : ∑ k in Finset.range (ids.length + 1),
        d.pinv (ids ++ [mu]) ids.length k * (d.t ((ids ++ [mu]).getD k 0))⁻¹ * p -
      ∑ k in Finset.range (ids.length + 1), d.pinv (ids ++ [mu]) ids.length k =
      ∑ k in Finset.range (ids.length + 1),
        d.pinv (ids ++ [mu]) ids.length k *
          (p * (d.t ((ids ++ [mu]).getD k 0))⁻¹ - 1) := by
    rw [← Finset.sum_sub_distrib]
    exact Finset.sum_congr rfl (fun k _ => by ring)
  rw [Finset.sum_mul, hgoal]
  calc
    ∑ k in Finset.range (ids.length + 1),
        d.pinv (ids ++ [mu]) ids.length k *
          (p * (d.t ((ids ++ [mu]).getD k 0))⁻¹ - 1) =
        ∑ k in Finset.range (ids.length + 1),
          ∑ j in Finset.range (ids.length + 1),
            d.pinv (ids ++ [mu]) ids.length k *
              d.T ((ids ++ [mu]).getD k 0) ((ids ++ [mu]).getD j 0) * y j := by
      refine Finset.sum_congr rfl (fun k hk => ?_)
      rw [Finset.mem_range] at hk
      rw [hb k hk, Finset.mul_sum]
      exact Finset.sum_congr rfl (fun j _ => by ring)
    _ = ∑ j in Finset.range (ids.length + 1),
          ∑ k in Finset.range (ids.length + 1),
            d.pinv (ids ++ [mu]) ids.length k *
              d.T ((ids ++ [mu]).getD k 0) ((ids ++ [mu]).getD j 0) * y j :=
      Finset.sum_comm
    _ = ∑ j in Finset.range (ids.length + 1),
          (if ids.length = j then 1 else 0) * y j := by
      refine Finset.sum_congr rfl (fun j hj => ?_)
      rw [Finset.mem_range] at hj
      rw [← hPT j hj, Finset.sum_mul]
    _ = y ids.length := by
      simp only [ite_mul, one_mul, zero_mul]
      rw [Finset.sum_ite_eq, if_pos (Finset.mem_range.mpr (Nat.lt_succ_self _))]
    _ = 0 := by simp [hy]

/-- Claim C10 counterexample: in run A the vanishing event of the third
iteration moves the pump intensity from `2^30` down to
`(2^36 + 1)/65 + 1e-10`: the pump does not strictly increase at every
iteration of the event loop.  (The second conjunct confirms the decreasing
step is a genuine loop iteration: the loop guard held before it.) -/
theorem pump_not_strictly_increasing_cex :
    (miRun dataA 1).pump < dataA.dEnd ∧
      (miRun dataA 2).pump < (miRun dataA 1).pump := by
  obtain ⟨_, hp1, _⟩ := runA_state1
  obtain ⟨_, hp2, _⟩ := runA_state2
  constructor
  · rw [hp1]; norm_num [dataA]
  · rw [hp1, hp2]; norm_num [eps10]

/-- Claim C10, amended: an onset event with a finite interacting threshold
advances the pump strictly (only thresholds exceeding the current pump are
candidates); when no finite onset threshold remains the pump jumps to
`1.1 * pump_intensities[-1]`, past the end of the sweep, terminating the
loop; but the vanishing event sets the pump to the minimum vanishing
intensity plus `1e-10`, a value that can lie below the current pump (as in
`pump_not_strictly_increasing_cex`), so the pump need not increase at a
vanishing event. -/
theorem pump_advance_amended (d : MIData α) (s : MIState α) :
    (¬ (miHasVan d s.lasing ∧
        npMin (miVi d s.lasing) s.lasing.length < miNextTh d s.pump s.lasing) →
      (∀ x : α, miNextTh d s.pump s.lasing = (x : WithTop α) →
        (miStep d s).pump = x ∧ s.pump < x) ∧
      (miNextTh d s.pump s.lasing = ⊤ →
        (miStep d s).pump = d.dEnd * (11 / 10) ∧
        (0 < d.dEnd → ¬ (miStep d s).pump < d.dEnd))) ∧
    ((miHasVan d s.lasing ∧
        npMin (miVi d s.lasing) s.lasing.length < miNextTh d s.pump s.lasing) →
      (miStep d s).pump =
        (npMin (miVi d s.lasing) s.lasing.length).untop' 0 + eps10) := by
  constructor
  · intro hnv
    constructor
    · intro x hx
      have hfin := miInteracting_finite d s.pump s.lasing
        (miNextId d s.pump s.lasing) x hx
      constructor
      · rw [miStep]
        simp only
        rw [if_neg hnv, if_pos (hx ▸ WithTop.coe_lt_top x)]
        rw [hx, WithTop.untop'_coe]
      · exact hfin.2.2
    · intro hx
      constructor
      · rw [miStep]
        simp only
        rw [if_neg hnv, if_neg (by rw [hx]; exact lt_irrefl _)]
      · intro hd hlt
        rw [miStep] at hlt
        simp only at hlt
        rw [if_neg hnv, if_neg (by rw [hx]; exact lt_irrefl _)] at hlt
        simp only at hlt
        nlinarith [hlt]
  · intro hv
    rw [miStep]
    simp only
    rw [if_pos hv]

/-- Witness for the amended claim C10: the onset event of the first
iteration of run A advances the pump strictly, from 1 to `2^30`. -/
theorem pump_advance_amended_witness :
    (miStep dataA (miRun dataA 0)).pump = 2 ^ 30 ∧
      (miRun dataA 0).pump < 2 ^ 30 := by
  obtain ⟨hl, hp, _⟩ := runA_init
  have hl0 : (miRun dataA 0).lasing = [0] := hl
  have hp0 : (miRun dataA 0).pump = 1 := hp
  have hnc : ¬ (miHasVan dataA (miRun dataA 0).lasing ∧
      npMin (miVi dataA (miRun dataA 0).lasing) (miRun dataA 0).lasing.length <
        miNextTh dataA (miRun dataA 0).pump (miRun dataA 0).lasing) := by
    rw [hl0]
    exact fun hc => runA_noVan1 hc.1
  have hnth : miNextTh dataA (miRun dataA 0).pump (miRun dataA 0).lasing =
      ((2 ^ 30 : ℚ) : WithTop ℚ) := by
    rw [hl0, hp0]
    exact runA_nextTh1
  have h := ((pump_advance_amended dataA (miRun dataA 0)).1 hnc).1 (2 ^ 30) hnth
  exact h

/-- Claim C7 counterexample.  Run A: at pump `2^30` the still-lasing mode 0
is recorded with the strictly negative intensity `1/2^35 - 1/32` (its decline
slope at the previous step, `-2^-35`, lies inside the `(-1e-10, 0)` band that
the vanishing test cannot see).  Run C: mode 1 turns on at pump 5, beyond the
sweep end 3, so it is in the final lasing set with a finite interacting
threshold but its trajectory holds no record at all — in particular it does
not start at 0 at the pump where it begins lasing. -/
theorem mi_intensity_invariant_cex :
    (((0 : ℕ), (2 ^ 30 : ℚ), (1 / 2 ^ 35 - 1 / 32 : ℚ)) ∈ (miRun dataA 2).records ∧
      (1 / 2 ^ 35 - 1 / 32 : ℚ) < 0) ∧
    (1 ∈ (miRun dataC 2).lasing ∧
      (miRun dataC 2).interacting 1 = ((5 : ℚ) : WithTop ℚ) ∧
      ∀ r ∈ (miRun dataC 2).records, r.1 ≠ 1) := by
  obtain ⟨_, _, hrA⟩ := runA_state2
  obtain ⟨hlC, hrC, hiC⟩ := runC_state2
  refine ⟨⟨?_, by norm_num⟩, ?_, hiC, ?_⟩
  · rw [hrA]; simp
  · rw [hlC]; simp
  · rw [hrC]
    intro r hr
    simp only [List.mem_cons, List.not_mem_nil, or_false] at hr
    rcases hr with h | h <;> subst h <;> norm_num

/-- Claim C7, amended: the continuation starts with exactly the single
lowest-threshold mode lasing, its intensity recorded as exactly 0 at its own
threshold; a vanishing mode is recorded as exactly 0 at its turn-off pump;
and when a mode turns on, the intensity value recorded for it at its
effective threshold is exactly 0 (given that the pseudo-inverse oracle
returns exact inverses of the competition submatrices and the onset equation
denominators are nonzero).  However, the recorded intensity of a
currently-lasing mode is not always nonnegative, and a mode that turns on at
a pump beyond the sweep end gets no trajectory entry
(`mi_intensity_invariant_cex`). -/
theorem mi_intensity_invariant_amended (d : MIData α) (s : MIState α)
    (ids : List ℕ) (mu : ℕ)
    (hTP : ∀ i < ids.length, ∀ k < ids.length,
      ∑ j in Finset.range ids.length,
        d.T (ids.getD i 0) (ids.getD j 0) * d.pinv ids j k = if i = k then 1 else 0)
    (hPT : ∀ j < ids.length + 1,
      ∑ k in Finset.range (ids.length + 1),
        d.pinv (ids ++ [mu]) ids.length k *
          d.T ((ids ++ [mu]).getD k 0) ((ids ++ [mu]).getD j 0) =
        if ids.length = j then 1 else 0)
    (ht : d.t mu ≠ 0)
    (hden : 1 - d.t mu * miAdot d ids mu ≠ 0) :
    ((miInit d).lasing = [npArgmin (fun i => ((d.t i : α) : WithTop α)) d.n] ∧
      (miInit d).records = [(npArgmin (fun i => ((d.t i : α) : WithTop α)) d.n,
        d.t (npArgmin (fun i => ((d.t i : α) : WithTop α)) d.n), 0)] ∧
      ∀ j < d.n, d.t (npArgmin (fun i => ((d.t i : α) : WithTop α)) d.n) ≤ d.t j) ∧
    ((miHasVan d s.lasing ∧
        npMin (miVi d s.lasing) s.lasing.length < miNextTh d s.pump s.lasing) →
      (miStep d s).records.getLast? =
        some (s.lasing.getD (npArgmin (miVi d s.lasing) s.lasing.length) 0,
          (npMin (miVi d s.lasing) s.lasing.length).untop' 0 + eps10, 0)) ∧
    miSlope d (ids ++ [mu]) ids.length * miEffTh d ids mu -
      miShift d (ids ++ [mu]) ids.length = 0 := by
  refine ⟨⟨rfl, rfl, ?_⟩, ?_, ?_⟩
  · intro j hj
    have h2 := npArgmin_le (fun i => ((d.t i : α) : WithTop α)) d.n j hj
    simp only at h2
    exact_mod_cast h2
  · intro hv
    rw [miStep]
    simp only
    rw [if_pos hv]
    simp only
    rw [List.getLast?_append_cons]
    rfl
  · exact onset_intensity_zero d ids mu hTP hPT ht hden

/-- Witness for the amended claim C7, at the onset of mode 1 of run C
(submatrix inverses checked concretely): the newly lasing mode has recorded
intensity exactly 0 at its effective threshold, and the initial mode has the
least threshold. -/
theorem mi_intensity_invariant_amended_witness :
    miSlope dataC ([0] ++ [1]) 1 * miEffTh dataC [0] 1 -
        miShift dataC ([0] ++ [1]) 1 = 0 ∧
      ∀ j < dataC.n,
        dataC.t (npArgmin (fun i => ((dataC.t i : ℚ) : WithTop ℚ)) dataC.n) ≤
          dataC.t j := by
  have hTP : ∀ i < ([0] : List ℕ).length, ∀ k < ([0] : List ℕ).length,
      ∑ j in Finset.range ([0] : List ℕ).length,
        dataC.T (([0] : List ℕ).getD i 0) (([0] : List ℕ).getD j 0) *
          dataC.pinv [0] j k = if i = k then 1 else 0 := by
    intro i hi k hk
    simp only [List.length_singleton] at hi hk
    have hi0 : i = 0 := by omega
    have hk0 : k = 0 := by omega
    subst hi0; subst hk0
    norm_num [sum_range_one, dataC, TmatC, pinvC]
  have hPT : ∀ j < ([0] : List ℕ).length + 1,
      ∑ k in Finset.range (([0] : List ℕ).length + 1),
        dataC.pinv ([0] ++ [1]) ([0] : List ℕ).length k *
          dataC.T ((([0] : List ℕ) ++ [1]).getD k 0) ((([0] : List ℕ) ++ [1]).getD j 0) =
        if ([0] : List ℕ).length = j then 1 else 0 := by
    intro j hj
    simp only [List.length_singleton] at hj ⊢
    have : j = 0 ∨ j = 1 := by omega
    rcases this with h | h <;> subst h <;>
      norm_num [sum_range_two, dataC, TmatC, pinvC]
  have ht : dataC.t 1 ≠ 0 := by norm_num [dataC, tvecC]
  have hden : 1 - dataC.t 1 * miAdot dataC [0] 1 ≠ 0 := by
    norm_num [miAdot, miAvec, dataC, pinvC, tvecC, TmatC, sum_range_one]
  have h := mi_intensity_invariant_amended dataC (miInit dataC) [0] 1 hTP hPT ht hden
  exact ⟨h.2.2, h.1.2.2⟩

/-- Claim C5 counterexample: in run B, after mode 1 turns on at pump 2, the
lasing mode 0 has intensity 1 and strictly negative slope `-2^-35`: its
intensity crosses zero from above at pump `2^35 + 2`, inside the sweep range
and below the next onset event (there is none, i.e. `inf`).  The claim says
this vanishing event preempts the onset event, turning mode 0 off; the code
instead takes the onset branch (the slope is inside the `-1e-10` tolerance)
and mode 0 is still lasing afterwards. -/
theorem vanishing_tolerance_missed_event_cex :
    miSlope dataB (miRun dataB 1).lasing 0 < 0 ∧
      ((0 : ℕ), (2 : ℚ), (1 : ℚ)) ∈ (miRun dataB 2).records ∧
      miShift dataB (miRun dataB 1).lasing 0 /
        miSlope dataB (miRun dataB 1).lasing 0 = 2 ^ 35 + 2 ∧
      ((2 ^ 35 + 2 : ℚ) : WithTop ℚ) <
        miNextTh dataB (miRun dataB 1).pump (miRun dataB 1).lasing ∧
      (2 ^ 35 + 2 : ℚ) < dataB.dEnd ∧
      0 ∈ (miRun dataB 2).lasing := by
  obtain ⟨hl, hp, hr⟩ := runB_state1
  obtain ⟨hl2, hr2⟩ := runB_state2
  rw [hl, hp]
  refine ⟨?_, ?_, ?_, ?_, ?_, ?_⟩
  · rw [runB_slope2_0]; norm_num
  · rw [hr2]; simp
  · rw [runB_slope2_0, runB_shift2_0]; norm_num
  · rw [runB_nextTh2]; exact WithTop.coe_lt_top _
  · norm_num [dataB]
  · rw [hl2]; simp

/-- Claim C5, amended: at each step the next event is chosen between (a) the
onset of the non-lasing mode with the lowest effective threshold among those
exceeding the current pump, and (b) the vanishing of a currently-lasing mode;
but the vanishing test only sees modes whose intensity slope is strictly
below the `-1e-10` tolerance: such a mode with minimal zero crossing turns
off (recorded at its crossing plus `1e-10`) whenever that minimal crossing
precedes the onset threshold, while a mode declining with slope inside
`(-1e-10, 0]` is never turned off, even when its crossing precedes the onset
event. -/
theorem mi_event_selection_amended (d : MIData α) (s : MIState α) :
    (∀ mu (x : α), miInteracting d s.pump s.lasing mu = (x : WithTop α) →
      mu ∉ s.lasing ∧ x = miEffTh d s.lasing mu ∧ s.pump < x) ∧
    (∀ mu < d.n, miNextTh d s.pump s.lasing ≤ miInteracting d s.pump s.lasing mu) ∧
    (∀ j, miVi d s.lasing j ≠ ⊤ → miSlope d s.lasing j ≤ -eps10) ∧
    ((miHasVan d s.lasing ∧
        npMin (miVi d s.lasing) s.lasing.length < miNextTh d s.pump s.lasing) →
      (miStep d s).lasing =
        s.lasing.erase (s.lasing.getD
          (npArgmin (miVi d s.lasing) s.lasing.length) 0) ∧
      (miStep d s).pump =
        (npMin (miVi d s.lasing) s.lasing.length).untop' 0 + eps10 ∧
      (0 < s.lasing.length →
        miVi d s.lasing (npArgmin (miVi d s.lasing) s.lasing.length) =
          npMin (miVi d s.lasing) s.lasing.length) ∧
      ∀ j < s.lasing.length,
        npMin (miVi d s.lasing) s.lasing.length ≤ miVi d s.lasing j) ∧
    (¬ (miHasVan d s.lasing ∧
        npMin (miVi d s.lasing) s.lasing.length < miNextTh d s.pump s.lasing) →
      (miStep d s).lasing = s.lasing ++ [miNextId d s.pump s.lasing]) := by
  refine ⟨?_, ?_, ?_, ?_, ?_⟩
  · exact fun mu x h => miInteracting_finite d s.pump s.lasing mu x h
  · intro mu hmu
    exact npArgmin_le (miInteracting d s.pump s.lasing) d.n mu hmu
  · intro j hj
    rw [miVi] at hj
    by_cases hc : -eps10 < miSlope d s.lasing j
    · rw [if_pos hc] at hj; exact absurd rfl hj
    · exact le_of_not_lt hc
  · intro hv
    refine ⟨?_, ?_, ?_, ?_⟩
    · rw [miStep]; simp only; rw [if_pos hv]
    · rw [miStep]; simp only; rw [if_pos hv]
    · intro hL
      exact (npMin_eq_argmin (miVi d s.lasing) s.lasing.length hL).symm
    · intro j hj
      exact npMin_le (miVi d s.lasing) s.lasing.length j hj
  · intro hv
    rw [miStep]
    simp only
    rw [if_neg hv]
    by_cases hc : miNextTh d s.pump s.lasing < ⊤
    · rw [if_pos hc]
    · rw [if_neg hc]

/-- Witness for the amended claim C5: at the initial state of run B the
onset branch fires (no slope is below the tolerance) and mode 1, the sole
candidate exceeding the pump, is appended; its effective threshold is 2. -/
theorem mi_event_selection_amended_witness :
    ((1 : ℕ) ∉ (miRun dataB 0).lasing ∧
      (2 : ℚ) = miEffTh dataB (miRun dataB 0).lasing 1 ∧
      (miRun dataB 0).pump < 2) ∧
    (miStep dataB (miRun dataB 0)).lasing =
      (miRun dataB 0).lasing ++ [miNextId dataB (miRun dataB 0).pump (miRun dataB 0).lasing] := by
  obtain ⟨hl, hp, _⟩ := runB_init
  have hl0 : (miRun dataB 0).lasing = [0] := hl
  have hp0 : (miRun dataB 0).pump = 1 := hp
  have h := mi_event_selection_amended dataB (miRun dataB 0)
  have hint : miInteracting dataB (miRun dataB 0).pump (miRun dataB 0).lasing 1 =
      ((2 : ℚ) : WithTop ℚ) := by
    rw [hl0, hp0]
    exact runB_int1
  have hnv : ¬ (miHasVan dataB (miRun dataB 0).lasing ∧
      npMin (miVi dataB (miRun dataB 0).lasing) (miRun dataB 0).lasing.length <
        miNextTh dataB (miRun dataB 0).pump (miRun dataB 0).lasing) := by
    rw [hl0]
    exact fun hc => runB_noVan1 hc.1
  exact ⟨h.1 1 2 hint, h.2.2.2.2 hnv⟩

end MITheorems

section C2Theorems

theorem pumpMask_zero {nn m : ℕ} (g : PumpGraphData nn m)
    (hp : ∀ e, g.pump e = 0) : pumpMask g = 0 := by
  rw [pumpMask]
  have h : convertEdges (fun e => ((g.pump e : ℝ) : ℂ)) = fun _ => 0 := by
    funext j
    rw [convertEdges]
    simp [hp]
  rw [h]
  simp

theorem graphNorm_zero_mask {nn m : ℕ} (g : PumpGraphData nn m)
    (sol : Fin nn → ℂ) : graphNorm g 0 sol = 0 := by
  rw [graphNorm]
  simp

theorem ltlDenom_zero_pump {nn m : ℕ} (g : PumpGraphData nn m)
    (hp : ∀ e, g.pump e = 0) (sol : Fin nn → ℂ) (qv : ℝ) (gam : ℂ) :
    ltlDenomVal g sol qv gam = 0 := by
  rw [ltlDenomVal, overlappingFactor, pumpMask_zero g hp, graphNorm_zero_mask]
  simp

theorem tl_thresholds_top_of_loss {α : Type*} [LinearOrderedField α]
    (R : TLOracles α) (P : TLParams α) (passive : ℕ → α × α)
    (hloss : ∀ i mo D0 ss, tol6 ≤ |(R.refine i mo D0 ss).2|) :
    ∀ fuel i, (tlRun R P passive fuel).thresholds i = ⊤ := by
  intro fuel i
  apply tl_virgin
  intro r _ hacc
  exact absurd hacc.2 (not_lt.2 (hloss i _ _ _))

theorem tl_D0_invariant {α : Type*} [LinearOrderedField α]
    (R : TLOracles α) (P : TLParams α) (passive : ℕ → α × α)
    (hd : ∀ mo D0, R.ltlDenom mo D0 = 0) :
    ∀ r, ∀ i ∈ (tlRun R P passive r).current,
      (tlRun R P passive r).D0s i = (r : α) * P.D0Step := by
  intro r
  induction r with
  | zero => intro i _; simp [tlRun, tlInit]
  | succ r ih =>
    intro i hi
    rw [tlRun_succ] at hi ⊢
    by_cases hnil : (tlRun R P passive r).current = []
    · rw [if_pos hnil] at hi
      exact absurd hi (by rw [hnil]; exact List.not_mem_nil i)
    · rw [if_neg hnil] at hi ⊢
      have hmem : i ∈ (tlRun R P passive r).current :=
        ((tlStep_mem_current R P _ i).mp hi).1
      show tlNewD0 R P (tlRun R P passive r) i = _
      rw [tlNewD0, if_pos hmem, hd, if_pos rfl, ih i hmem]
      push_cast
      ring

theorem tl_terminates_of_denom_zero {α : Type*} [LinearOrderedField α]
    (R : TLOracles α) (P : TLParams α) (passive : ℕ → α × α)
    (hd : ∀ mo D0, R.ltlDenom mo D0 = 0)
    (hstep : 0 < P.D0Step) (N : ℕ) (hN : P.D0Max < (N : α) * P.D0Step) :
    ∀ fuel, N ≤ fuel → 1 ≤ fuel → (tlRun R P passive fuel).current = [] := by
  have hstep2 : ∀ r : ℕ, N ≤ r + 1 → (tlRun R P passive (r + 1)).current = [] := by
    intro r hr
    rw [tlRun_succ]
    by_cases hnil : (tlRun R P passive r).current = []
    · rw [if_pos hnil]; exact hnil
    · rw [if_neg hnil]
      rw [tlStep]
      simp only
      rw [List.filter_eq_nil_iff]
      intro i hi
      simp only [decide_eq_true_eq, not_and, not_not]
      intro _
      have hD0 := tl_D0_invariant R P passive hd r i hi
      have hnew : tlNewD0 R P (tlRun R P passive r) i = ((r : α) + 1) * P.D0Step := by
        rw [tlNewD0, if_pos hi, hd, if_pos rfl, hD0]
        ring
      rw [hnew]
      calc P.D0Max < (N : α) * P.D0Step := hN
        _ ≤ ((r : α) + 1) * P.D0Step := by
            have hcast : (N : α) ≤ (r : α) + 1 := by
              have : ((N : ℕ) : α) ≤ ((r + 1 : ℕ) : α) := Nat.cast_le.mpr hr
              push_cast at this
              linarith
            exact mul_le_mul_of_nonneg_right hcast (le_of_lt hstep)
  intro fuel hN2 h1
  rcases Nat.exists_eq_succ_of_ne_zero (by omega : fuel ≠ 0) with ⟨r, hr⟩
  subst hr
  exact hstep2 r (by omega)

/-- Claim C2, amended: on a graph whose pump weight is zero on every edge the
`lasing_threshold_linear` denominator vanishes, so provided every refined
position keeps `|loss| ≥ 1e-6` all thresholds stay infinite and the loop
terminates once `D0` exceeds `D0_max`; the zero-pump hypothesis alone does not
force infinite thresholds (see the counterexample). -/
theorem zero_pump_infinite_thresholds_amended {nn m : ℕ} (g : PumpGraphData nn m)
    (solO : ℝ × ℝ → ℝ → Fin nn → ℂ) (qvO : ℝ × ℝ → ℝ) (gamO : ℝ × ℝ → ℝ → ℂ)
    (pl : ℝ × ℝ → ℝ → ℝ → ℝ × ℝ) (ref : ℕ → ℝ × ℝ → ℝ → ℝ → ℝ × ℝ)
    (P : TLParams ℝ) (passive : ℕ → ℝ × ℝ) (N fuel : ℕ)
    (hp : ∀ e, g.pump e = 0)
    (hinner : ∀ mo D0, graphNorm g (dielInner g) (solO mo D0) ≠ 0)
    (hloss : ∀ i mo D0 ss, tol6 ≤ |(ref i mo D0 ss).2|)
    (hstep : 0 < P.D0Step)
    (hN : P.D0Max < (N : ℝ) * P.D0Step) :
    (∀ i, (tlRun (mkTLOracles g solO qvO gamO pl ref) P passive fuel).thresholds i = ⊤) ∧
    (N ≤ fuel → 1 ≤ fuel →
      (tlRun (mkTLOracles g solO qvO gamO pl ref) P passive fuel).current = []) := by
  have hd : ∀ mo D0, (mkTLOracles g solO qvO gamO pl ref).ltlDenom mo D0 = 0 :=
    fun mo D0 => ltlDenom_zero_pump g hp _ _ _
  exact ⟨fun i => tl_thresholds_top_of_loss _ P passive hloss fuel i,
    fun h1 h2 => tl_terminates_of_denom_zero _ P passive hd hstep N hN fuel h1 h2⟩

theorem innerNorm_gC2 : graphNorm gC2 (dielInner gC2) solC2 = 2 := by
  rw [graphNorm]
  have hmask : dielInner gC2 = 1 := by
    rw [dielInner, inMask]
    have h1 : convertEdges gC2.dielectric = fun _ => 1 := by funext j; rfl
    have h2 : convertEdges (fun e => if gC2.inner e then (1 : ℂ) else 0) =
        fun _ => 1 := by funext j; rfl
    rw [h1, h2]
    have : (Matrix.diagonal (fun _ => (1 : ℂ)) : Matrix (Fin (2 * 1)) (Fin (2 * 1)) ℂ) = 1 :=
      Matrix.diagonal_one
    rw [this, Matrix.mul_one]
  rw [hmask, Matrix.mul_one]
  have hW : gC2.Winv * gC2.Zmat * gC2.Winv = 1 := by
    show (1 : Matrix (Fin (2 * 1)) (Fin (2 * 1)) ℂ) * 1 * 1 = 1
    simp
  rw [hW, Matrix.mul_one]
  have hBB : gC2.BT * gC2.Bout = Matrix.of (fun _ _ => (2 : ℂ)) := by
    ext i j
    rw [Matrix.mul_apply]
    show ∑ _k : Fin (2 * 1), (1 : ℂ) * 1 = 2
    rw [Fin.sum_univ_two]
    norm_num
  rw [hBB]
  show Matrix.dotProduct solC2 ((Matrix.of fun _ _ => (2 : ℂ)).mulVec solC2) = 2
  rw [Matrix.dotProduct, Fin.sum_univ_one]
  rw [Matrix.mulVec, Matrix.dotProduct, Fin.sum_univ_one]
  show (1 : ℂ) * ((2 : ℂ) * 1) = 2
  ring

/-- Claim C2 counterexample: on the zero-pump operating point `gC2`, a mode
whose refinement lands on a lossless position (`|loss| = 0 < 1e-6`) is
accepted in the very first round with the finite threshold `1/2 = D0_step`,
refuting the claim that zero pump forces every threshold to infinity. -/
theorem zero_pump_finite_threshold_cex :
    (∀ e, gC2.pump e = 0) ∧
      (tlRun RC2 PC2 pasC2 1).thresholds 0 = ((1 / 2 : ℝ) : WithTop ℝ) ∧
      (tlRun RC2 PC2 pasC2 1).thresholds 0 ≠ ⊤ := by
  have hp : ∀ e, gC2.pump e = 0 := fun _ => rfl
  have hcur : (tlRun RC2 PC2 pasC2 0).current = [0] := by
    show List.range PC2.nModes = [0]
    rw [show PC2.nModes = 1 from rfl, rangeOne]
  have hmem : (0 : ℕ) ∈ (tlRun RC2 PC2 pasC2 0).current := by rw [hcur]; simp
  have hrun : tlRun RC2 PC2 pasC2 1 = tlStep RC2 PC2 (tlRun RC2 PC2 pasC2 0) := by
    rw [tlRun_succ, if_neg (by rw [hcur]; simp)]
  have hsnd : (tlRefined RC2 PC2 (tlRun RC2 PC2 pasC2 0) 0).2 = 0 := rfl
  have hloss0 : |(tlRefined RC2 PC2 (tlRun RC2 PC2 pasC2 0) 0).2| < tol6 := by
    rw [hsnd]
    norm_num [tol6]
  have hden0 : RC2.ltlDenom ((tlRun RC2 PC2 pasC2 0).newModes 0)
      ((tlRun RC2 PC2 pasC2 0).D0s 0) = 0 :=
    ltlDenom_zero_pump gC2 hp _ _ _
  have hnew : tlNewD0 RC2 PC2 (tlRun RC2 PC2 pasC2 0) 0 = 1 / 2 := by
    rw [tlNewD0, if_pos hmem, hden0, if_pos rfl]
    show PC2.D0Step + (tlInit PC2 pasC2).D0s 0 = 1 / 2
    norm_num [tlInit, PC2]
  refine ⟨hp, ?_, ?_⟩
  · rw [hrun, tlStep]
    simp only
    rw [if_pos ⟨hmem, hloss0⟩, hnew]
  · rw [hrun, tlStep]
    simp only
    rw [if_pos ⟨hmem, hloss0⟩]
    exact WithTop.coe_ne_top

/-- Witness for the amended claim C2: on `gC2` with a refinement oracle that
always reports loss 1, three rounds leave every threshold at infinity and
empty the current-mode list. -/
theorem zero_pump_infinite_thresholds_witness :
    (∀ e, gC2.pump e = 0) ∧
      (∀ i, (tlRun (mkTLOracles gC2 (fun _ _ => solC2) (fun _ => 1)
        (fun _ _ => Complex.I) (fun mo _ _ => mo) (fun _ _ _ _ => (1, 1)))
        PC2 pasC2 3).thresholds i = ⊤) ∧
      (tlRun (mkTLOracles gC2 (fun _ _ => solC2) (fun _ => 1)
        (fun _ _ => Complex.I) (fun mo _ _ => mo) (fun _ _ _ _ => (1, 1)))
        PC2 pasC2 3).current = [] := by
  have hp : ∀ e, gC2.pump e = 0 := fun _ => rfl
  have hinner : ∀ mo D0, graphNorm gC2 (dielInner gC2)
      ((fun (_ : ℝ × ℝ) (_ : ℝ) => solC2) mo D0) ≠ 0 := by
    intro mo D0
    rw [show (fun (_ : ℝ × ℝ) (_ : ℝ) => solC2) mo D0 = solC2 from rfl, innerNorm_gC2]
    norm_num
  have hloss : ∀ (i : ℕ) (mo : ℝ × ℝ) (D0 ss : ℝ),
      tol6 ≤ |((fun (_ : ℕ) (_ : ℝ × ℝ) (_ : ℝ) (_ : ℝ) => ((1 : ℝ), (1 : ℝ))) i mo D0 ss).2| := by
    intro i mo D0 ss
    norm_num [tol6]
  have h := zero_pump_infinite_thresholds_amended gC2 (fun _ _ => solC2) (fun _ => 1)
    (fun _ _ => Complex.I) (fun mo _ _ => mo) (fun _ _ _ _ => (1, 1)) PC2 pasC2 3 3
    hp hinner hloss (by norm_num [PC2]) (by norm_num [PC2])
  exact ⟨hp, h.1, h.2 (le_refl _) (by norm_num)⟩

end C2Theorems

section C6Theorems

theorem competitionElement_zero_pump (lengths : ℕ → ℝ) (pump : ℕ → ℝ)
    (inner : ℕ → Bool) (m : ℕ) (mu nu : MCModeData) (gammaNu : ℂ)
    (hp : ∀ e, pump e = 0) :
    competitionElement lengths pump inner m mu nu gammaNu = 0 := by
  rw [competitionElement]
  have hsum : (∑ ei in Finset.range m,
      if 0 < pump ei ∧ inner ei then
        Matrix.dotProduct (mcLeft nu ei)
          ((Matrix.of (mcInner (mu.ks ei) (nu.ks ei)
            (lengths ei))).mulVec (mcRight mu ei))
      else 0) = 0 := by
    refine Finset.sum_eq_zero (fun ei _ => ?_)
    rw [hp ei]
    exact if_neg (fun hcc => lt_irrefl 0 hcc.1)
  rw [hsum]
  simp

/-- Claim C6 counterexample: with the real wavenumber `k_nu = 1` on a pumped
inner edge, the E-term denominator `1j * (k_nu - conj(k_nu))` of
`_compute_mode_competition_element` is exactly zero, the source evaluates
`0/0` producing a non-finite float, and the competition-matrix entry of the
finite-threshold pair is not a finite real number. -/
theorem competition_matrix_nonfinite_entry_cex :
    ((0 : ℝ) < 1 ∧ ((fun _ : ℕ => true) 0 : Bool) = true) ∧
      mcDenoms 1 1 4 = 0 ∧
      competitionMatrixFullE (fun _ => 1) (fun _ => 1) (fun _ => true) 1
        (fun _ => ((1 : ℝ) : WithTop ℝ)) (fun _ => ⟨fun _ => 1, fun _ => 1⟩)
        (fun _ => Complex.I) 0 0 = none := by
  have hden : mcDenoms 1 1 4 = 0 := by
    show Complex.I * ((1 : ℂ) - starRingEnd ℂ 1) = 0
    rw [map_one, sub_self, mul_zero]
  refine ⟨⟨by norm_num, rfl⟩, hden, ?_⟩
  rw [competitionMatrixFullE,
    if_pos ⟨WithTop.coe_lt_top _, WithTop.coe_lt_top _⟩, competitionElementE]
  rw [if_neg]
  · rfl
  · intro hdef
    exact hdef 0 (Finset.mem_range.mpr (by norm_num)) ⟨by norm_num, rfl⟩ 4 hden

/-- Claim C6, amended: entries of `compute_mode_competition_matrix` are real
numbers by construction (`np.real` over the finite-threshold pairs, the
`np.zeros` fill elsewhere) and the whole matrix is zero when the pump weight
vanishes on every edge; an entry is however guaranteed to be a finite number
only when every pumped inner edge keeps all six resonant `ik_tmp`
denominators of `_compute_mode_competition_element` nonzero - a wavenumber
with `Im(k_nu) = 0` on a pumped inner edge zeroes the E-term denominator and
the source divides zero by zero, making the entry non-finite. -/
theorem competition_matrix_finite_amended (lengths : ℕ → ℝ) (pump : ℕ → ℝ)
    (inner : ℕ → Bool) (m : ℕ) (thresholds : ℕ → WithTop ℝ)
    (precomp : ℕ → MCModeData) (gam : ℕ → ℂ) :
    ((∀ e, pump e = 0) → ∀ muIdx nuIdx,
      competitionMatrixFullE lengths pump inner m thresholds precomp gam
        muIdx nuIdx = some 0) ∧
    (∀ muIdx nuIdx,
      mcDefined pump inner m (precomp muIdx) (precomp nuIdx) →
      competitionMatrixFullE lengths pump inner m thresholds precomp gam
        muIdx nuIdx =
        some (competitionMatrixFull lengths pump inner m thresholds precomp gam
          muIdx nuIdx)) := by
  constructor
  · intro hp muIdx nuIdx
    rw [competitionMatrixFullE]
    by_cases hc : thresholds muIdx < ⊤ ∧ thresholds nuIdx < ⊤
    · rw [if_pos hc]
      have hdef : mcDefined pump inner m (precomp muIdx) (precomp nuIdx) := by
        intro ei _ hcc
        rw [hp ei] at hcc
        exact absurd hcc.1 (lt_irrefl 0)
      rw [competitionElementE, if_pos hdef,
        competitionElement_zero_pump _ _ _ _ _ _ _ hp]
      rfl
    · rw [if_neg hc]
  · intro muIdx nuIdx hdef
    rw [competitionMatrixFullE, competitionMatrixFull, competitionElementE,
      if_pos hdef]
    by_cases hc : thresholds muIdx < ⊤ ∧ thresholds nuIdx < ⊤
    · rw [if_pos hc, if_pos hc]
      rfl
    · rw [if_neg hc, if_neg hc]

/-- Witness for the amended claim C6: a zero-pump instance yields the `some 0`
entry, and the pumped pair `k_mu = 2`, `k_nu = 1 + i` keeps all six resonant
denominators nonzero, so its entry is the finite value of the exact
expression. -/
theorem competition_matrix_finite_amended_witness :
    (∀ e : ℕ, (fun _ : ℕ => (0 : ℝ)) e = 0) ∧
      competitionMatrixFullE (fun _ => 1) (fun _ => 0) (fun _ => true) 1
        (fun _ => ((1 : ℝ) : WithTop ℝ)) (fun _ => ⟨fun _ => 0, fun _ => 0⟩)
        (fun _ => Complex.I) 0 0 = some 0 ∧
      competitionMatrixFullE (fun _ => 1) (fun _ => 1) (fun _ => true) 1
        (fun _ => ((1 : ℝ) : WithTop ℝ)) mcdTable (fun _ => Complex.I) 0 1 =
        some (competitionMatrixFull (fun _ => 1) (fun _ => 1) (fun _ => true) 1
          (fun _ => ((1 : ℝ) : WithTop ℝ)) mcdTable (fun _ => Complex.I) 0 1) := by
  have h6 : ∀ t : Fin 6, mcDenoms 2 (1 + Complex.I) t ≠ 0 := by
    have hconj : starRingEnd ℂ (1 + Complex.I) = 1 - Complex.I := by
      rw [map_add, map_one, Complex.conj_I, sub_eq_add_neg]
    have h5 : mcDenoms 2 (1 + Complex.I) 5 ≠ 0 := by
      show Complex.I * ((1 + Complex.I) + starRingEnd ℂ (1 + Complex.I)) ≠ 0
      rw [hconj]
      have h2 : (1 + Complex.I) + (1 - Complex.I) = 2 := by ring
      rw [h2]
      simp [Complex.ext_iff]
    intro t
    fin_cases t
    · simp [mcDenoms, hconj, Complex.ext_iff]
    · simp [mcDenoms, hconj, Complex.ext_iff]
    · simp [mcDenoms, hconj, Complex.ext_iff]
      norm_num
    · simp [mcDenoms, hconj, Complex.ext_iff]
      norm_num
    · simp [mcDenoms, hconj, Complex.ext_iff]
    · exact h5
  have hdef : mcDefined (fun _ => 1) (fun _ => true) 1 (mcdTable 0) (mcdTable 1) := by
    intro ei _ _ t
    show mcDenoms 2 (1 + Complex.I) t ≠ 0
    exact h6 t
  refine ⟨fun _ => rfl, ?_, ?_⟩
  · exact (competition_matrix_finite_amended (fun _ => 1) (fun _ => 0)
      (fun _ => true) 1 (fun _ => ((1 : ℝ) : WithTop ℝ))
      (fun _ => ⟨fun _ => 0, fun _ => 0⟩) (fun _ => Complex.I)).1 (fun _ => rfl) 0 0
  · exact (competition_matrix_finite_amended (fun _ => 1) (fun _ => 1)
      (fun _ => true) 1 (fun _ => ((1 : ℝ) : WithTop ℝ)) mcdTable
      (fun _ => Complex.I)).2 0 1 hdef

end C6Theorems

section C4Theorems

/-- Claim C4 counterexample: `construct_weight_matrix` special-cases only the
exact zero wavenumber (`abs(k) > 0` is its test).  At the numerically
near-zero wavenumber `k = 1e-9` on a unit-length edge the code takes the
division branch, producing a positive real number, not the analytic limit
`-0.5 * length`. -/
theorem weight_matrix_near_zero_cex :
    (((1 : ℝ) / 1000000000 : ℝ) : ℂ) ≠ 0 ∧
      Complex.abs (((1 : ℝ) / 1000000000 : ℝ) : ℂ) < 1 / 1000000 ∧
      wEntry 1 (((1 : ℝ) / 1000000000 : ℝ) : ℂ) ≠ -0.5 * ((1 : ℝ) : ℂ) := by
  have habs : Complex.abs (((1 : ℝ) / 1000000000 : ℝ) : ℂ) = 1 / 1000000000 := by
    rw [Complex.abs_ofReal]
    norm_num
  refine ⟨?_, ?_, ?_⟩
  · intro h
    rw [Complex.ofReal_eq_zero] at h
    norm_num at h
  · rw [habs]; norm_num
  · rw [wEntry, if_pos (by rw [habs]; norm_num)]
    have hexp : Complex.exp (2 * ((1 : ℝ) : ℂ) * (((1 : ℝ) / 1000000000 : ℝ) : ℂ)) =
        ((Real.exp (2 / 1000000000) : ℝ) : ℂ) := by
      rw [Complex.ofReal_exp]
      congr 1
      push_cast
      ring
    rw [hexp]
    have hpos : (0 : ℝ) < Real.exp (2 / 1000000000) - 1 := by
      have h1 : (2 / 1000000000 : ℝ) + 1 < Real.exp (2 / 1000000000) :=
        Real.add_one_lt_exp (by norm_num)
      linarith
    have hval : (((1 : ℝ) / 1000000000 : ℝ) : ℂ) /
        (((Real.exp (2 / 1000000000) : ℝ) : ℂ) - 1) =
        (((1 / 1000000000) / (Real.exp (2 / 1000000000) - 1) : ℝ) : ℂ) := by
      push_cast
      ring
    rw [hval]
    intro hcontra
    have h05 : (-0.5 * ((1 : ℝ) : ℂ)) = (((-0.5 : ℝ)) : ℂ) := by
      rw [Complex.ofReal_one, mul_one]
      norm_num
    rw [h05, Complex.ofReal_inj] at hcontra
    have hquot : (0 : ℝ) < (1 / 1000000000) / (Real.exp (2 / 1000000000) - 1) :=
      div_pos (by norm_num) hpos
    rw [hcontra] at hquot
    norm_num at hquot

/-- Claim C4, amended: the diagonal weight value of an edge is the ratio
`k / (exp(2*length*k) - 1)` for every nonzero wavenumber `k`, and the analytic
limit `-0.5 * length` exactly when `k` is the exact zero; both directed
traversals `2*ei` and `2*ei + 1` of edge `ei` receive this same value on the
diagonal of `W⁻¹`. -/
theorem weight_matrix_entries_amended (l : ℝ) (k : ℂ) (g : NAQGraph) (ei : ℕ)
    (hei : ei < g.edges.length) :
    (k ≠ 0 → wEntry l k = k / (propagationW l k - 1)) ∧
    (k = 0 → wEntry l k = -0.5 * l) ∧
    weightEntry g (2 * ei) (2 * ei) = wEntry (g.length ei) (g.k ei) ∧
    weightEntry g (2 * ei + 1) (2 * ei + 1) = wEntry (g.length ei) (g.k ei) := by
  refine ⟨?_, ?_, ?_, ?_⟩
  · intro hk
    rw [wEntry, propagationW, if_pos (AbsoluteValue.pos Complex.abs hk)]
  · intro hk
    subst hk
    rw [wEntry]
    simp
  · rw [weightEntry, Finset.sum_eq_single ei]
    · rw [if_pos ⟨rfl, rfl⟩, if_neg (by rintro ⟨h1, -⟩; omega)]
      ring
    · intro b _ hbne
      rw [if_neg (by rintro ⟨h1, -⟩; exact hbne (by omega)),
        if_neg (by rintro ⟨h1, -⟩; omega)]
      ring
    · intro hmem
      exact absurd (Finset.mem_range.mpr hei) hmem
  · rw [weightEntry, Finset.sum_eq_single ei]
    · rw [if_neg (by rintro ⟨h1, -⟩; omega), if_pos ⟨rfl, rfl⟩]
      ring
    · intro b _ hbne
      rw [if_neg (by rintro ⟨h1, -⟩; omega),
        if_neg (by rintro ⟨h1, -⟩; exact hbne (by omega))]
      ring
    · intro hmem
      exact absurd (Finset.mem_range.mpr hei) hmem

/-- Witness for the amended claim C4: the single edge of `gW4` has unit
wavenumber, the division branch applies, and the diagonal entry at the first
traversal equals the per-edge weight value. -/
theorem weight_matrix_entries_amended_witness :
    ((1 : ℂ) ≠ 0) ∧ wEntry 1 1 = 1 / (propagationW 1 1 - 1) ∧
      weightEntry gW4 0 0 = wEntry (gW4.length 0) (gW4.k 0) := by
  have h := weight_matrix_entries_amended 1 1 gW4 0 (by norm_num [gW4])
  refine ⟨one_ne_zero, h.1 one_ne_zero, ?_⟩
  have h2 := h.2.2.1
  norm_num at h2
  exact h2

end C4Theorems

section C8Theorems

/-- Claim C8 counterexample: on the single (dangling) edge of `gEdge`,
`construct_incidence_matrix` keeps the `-1` entry of `Bout` at `(0, 0)`
(only the `exp(i*l*k)` entries of a dangling edge are written as 0), while
the claim that `Bout` zeroes every contribution of a dangling edge forces
entry 0 there. -/
theorem bout_dangling_minus_one_cex :
    dangling gEdge 0 ∧ BoutEntry gEdge 0 0 = -1 ∧ BoutClaimEntry gEdge 0 0 = 0 ∧
      BoutEntry gEdge 0 0 ≠ BoutClaimEntry gEdge 0 0 := by
  have hd : dangling gEdge 0 := by decide
  have hB : BoutEntry gEdge 0 0 = -1 := by
    rw [BoutEntry, show gEdge.edges.length = 1 from rfl, sum_range_one, BoutContrib]
    rw [show gEdge.edges.getD 0 (0, 0) = (0, 1) from rfl]
    norm_num
  have hC : BoutClaimEntry gEdge 0 0 = 0 := by
    rw [BoutClaimEntry, show gEdge.edges.length = 1 from rfl, sum_range_one,
      if_pos hd]
  refine ⟨hd, hB, hC, ?_⟩
  rw [hB, hC]
  norm_num

/-- Claim C8, amended: `Bout` equals `B` minus exactly the propagation-phase
(`exp(i*l*k)`) contributions of the dangling edges; on every non-dangling
edge the contributions of `Bout` and `B` coincide entry-wise, and a dangling
edge keeps its two `-1` entries in `Bout`. -/
theorem bout_zeroes_only_phase_amended (g : NAQGraph) (r c : ℕ) :
    BoutEntry g r c = Bentry g r c - danglingPhase g r c ∧
    (∀ ei, ¬ dangling g ei →
      ∀ r2 c2, BoutContrib g ei r2 c2 = Bcontrib g ei r2 c2) ∧
    (∀ ei, dangling g ei →
      BoutContrib g ei (2 * ei) (g.edges.getD ei (0, 0)).1 = -1 ∧
      BoutContrib g ei (2 * ei + 1) (g.edges.getD ei (0, 0)).2 = -1) := by
  refine ⟨?_, ?_, ?_⟩
  · rw [BoutEntry, Bentry, danglingPhase, ← Finset.sum_sub_distrib]
    refine Finset.sum_congr rfl (fun ei _ => ?_)
    by_cases hd : dangling g ei
    · simp only [BoutContrib, Bcontrib, if_pos hd, ite_self]
      ring
    · simp only [BoutContrib, Bcontrib, if_neg hd]
      ring
  · intro ei hd r2 c2
    simp only [BoutContrib, Bcontrib, if_neg hd]
  · intro ei hd
    have h3 : ¬ (2 * ei = 2 * ei + 1) := by omega
    constructor
    · simp only [BoutContrib, if_pos hd, ite_self]
      simp [h3]
    · simp only [BoutContrib, if_pos hd, ite_self]
      simp [h3]

/-- Witness for the amended claim C8: edge 0 of the 3-cycle `gTri` is not
dangling and its `Bout` contribution agrees with its `B` contribution. -/
theorem bout_zeroes_only_phase_amended_witness :
    (¬ dangling gTri 0) ∧
      BoutContrib gTri 0 0 0 = Bcontrib gTri 0 0 0 := by
  have hnd : ¬ dangling gTri 0 := by decide
  exact ⟨hnd, (bout_zeroes_only_phase_amended gTri 0 0).2.1 0 hnd 0 0⟩

end C8Theorems

end NetSalt
